import Mathlib

/-!
Verification of the LaTeX template migration engine (`latex_migration.py`).

Documents are modelled as `List Char`; the Python string operations
`s[:i]`, `s[i:]`, `s.split('\n')`, `'\n'.join(...)`, `s.strip()` become
`List.take`, `List.drop`, `pySplit`, `joinN`, `pyStrip`.  The regular
expressions used by the script have no nesting or backtracking beyond
an optional star and a greedy `[^}]+` group, so each one is embedded as
an explicit scanning function with Python's leftmost-match semantics.
-/

set_option maxRecDepth 10000

namespace LatexMig

/-- Python `str.strip()` whitespace test (ASCII part, which is all the
script ever strips). -/
def pyWS (c : Char) : Bool :=
  c == ' ' || c == '\t' || c == '\n' || c == '\r' || c == '\x0b' || c == '\x0c'

/-- Right strip: drop trailing whitespace. -/
def rstrip (l : List Char) : List Char :=
  (l.reverse.dropWhile pyWS).reverse

/-- Python `str.strip()`. -/
def pyStrip (l : List Char) : List Char :=
  rstrip (l.dropWhile pyWS)

/-- Python `str.split('\n')`: always returns a nonempty list of lines
(`"".split('\n') == ['']`). -/
def pySplit : List Char → List (List Char)
  | [] => [[]]
  | c :: rest =>
    if c = '\n' then [] :: pySplit rest
    else
      match pySplit rest with
      | [] => [[c]]
      | h :: t => (c :: h) :: t

/-- Python `'\n'.join(lines)`. -/
def joinN : List (List Char) → List Char
  | [] => []
  | [l] => l
  | l :: l2 :: rest => l ++ '\n' :: joinN (l2 :: rest)

/-- Python `lines[a:b]` (list slice). -/
def pySlice (l : List (List Char)) (a b : Nat) : List (List Char) :=
  (l.drop a).take (b - a)

/-- `re.search(re.escape(pat), text) is not None`: substring containment. -/
def containsSub (pat text : List Char) : Bool :=
  (List.range (text.length + 1)).any (fun i => pat.isPrefixOf (text.drop i))

/-- All match positions of `list(re.finditer(pat, text))` for a literal,
non-self-overlapping pattern: scan left to right, jump past each match.
The `Nat` fuel (one unit per consumed character) only makes the
recursion structural; `findOcc` supplies enough of it. -/
def findOccAux (pat : List Char) : Nat → List Char → Nat → List Nat
  | 0, _, _ => []
  | _ + 1, [], _ => []
  | fuel + 1, c :: rest, i =>
    if pat.isPrefixOf (c :: rest) then
      i :: findOccAux pat fuel (List.drop (pat.length - 1) rest) (i + pat.length)
    else
      findOccAux pat fuel rest (i + 1)

def findOcc (pat text : List Char) : List Nat :=
  findOccAux pat text.length text 0

/-- The document-terminator sentinel `\end{document}`. -/
def endDocPat : List Char := '\\' :: ("end".data ++ '{' :: ("document".data ++ ['}']))

/-- The five structural marker kinds of `_compile_section_patterns`,
constructor names abbreviated because `section` is a Lean keyword. -/
inductive Kind where
  | chapter | sect | subsect | subsubsect | paragraph
  deriving DecidableEq, Repr

/-- The command name of each kind (the word after the backslash). -/
def kindName : Kind → List Char
  | Kind.chapter => "chapter".data
  | Kind.sect => "section".data
  | Kind.subsect => "subsection".data
  | Kind.subsubsect => "subsubsection".data
  | Kind.paragraph => "paragraph".data

/-- `_get_section_level_rank`: chapter=0 … paragraph=4. -/
def rankOf : Kind → Nat
  | Kind.chapter => 0
  | Kind.sect => 1
  | Kind.subsect => 2
  | Kind.subsubsect => 3
  | Kind.paragraph => 4

/-- Dictionary order of `self.sections_pattern` (Python dicts preserve
insertion order), also the order of the pattern list in
`find_section_in_template`. -/
def kindsOrder : List Kind :=
  [Kind.chapter, Kind.sect, Kind.subsect, Kind.subsubsect, Kind.paragraph]

/-!
Scanner regex `\\KIND(\*?)\{([^}]+)\}`

`genHere k s` decides whether the pattern matches at the head of suffix
`s` and returns the `([^}]+)` group; `genSearch` is `re.search` on a
line (leftmost match).
-/

/-- Match `\\KIND(\*?)\{([^}]+)\}` at the start of `s`; return group 2. -/
def genHere (k : Kind) (s : List Char) : Option (List Char) :=
  if ('\\' :: kindName k).isPrefixOf s then
    let rest := s.drop (1 + (kindName k).length)
    let rest2 := if rest.head? = some '*' then rest.tail else rest
    match rest2 with
    | '{' :: r3 =>
      let t := r3.takeWhile (fun c => c ≠ '}')
      if t = [] then none
      else
        match r3.drop t.length with
        | '}' :: _ => some t
        | _ => none
    | _ => none
  else none

/-- `pattern.search(line)` for the scanner pattern of kind `k`:
the group-2 string of the leftmost match, if any. -/
def genSearch (k : Kind) : List Char → Option (List Char)
  | [] => none
  | c :: rest =>
    match genHere k (c :: rest) with
    | some t => some t
    | none => genSearch k rest

/-!
Locator regex `\\KIND\*?\{<escaped title>\}` (find_section_in_template)
-/

/-- Match the locator pattern for `(k, title)` at the head of suffix `s`;
returns the matched length (`title` is matched literally, via
`re.escape`). -/
def litHere (k : Kind) (title : List Char) (s : List Char) : Option Nat :=
  if ('\\' :: (kindName k ++ '*' :: '{' :: (title ++ ['}']))).isPrefixOf s then
    some (4 + (kindName k).length + title.length)
  else if ('\\' :: (kindName k ++ '{' :: (title ++ ['}']))).isPrefixOf s then
    some (3 + (kindName k).length + title.length)
  else none

/-- `re.search` for the locator pattern: returns `(match.start(), match.end())`
of the leftmost match. -/
def searchLitAux (k : Kind) (title : List Char) : List Char → Nat → Option (Nat × Nat)
  | [], i =>
    match litHere k title [] with
    | some len => some (i, i + len)
    | none => none
  | c :: rest, i =>
    match litHere k title (c :: rest) with
    | some len => some (i, i + len)
    | none => searchLitAux k title rest (i + 1)

def searchLit (k : Kind) (title text : List Char) : Option (Nat × Nat) :=
  searchLitAux k title text 0

/-!
First pass of `extract_sections` / `extract_sections_content_only`
-/

/-- A marker occurrence of the first scanner pass (`all_sections` entries). -/
structure Occ where
  title : List Char
  kind : Kind
  rank : Nat
  lineIdx : Nat
  rawLine : List Char
  deriving DecidableEq, Repr

/-- Per line: the first kind in dictionary order whose pattern matches
(the `for level, pattern ... break` loop). -/
def lineMarkerAux (line : List Char) : List Kind → Option (Kind × List Char)
  | [] => none
  | k :: ks =>
    match genSearch k line with
    | some t => some (k, t)
    | none => lineMarkerAux line ks

def lineMarker (line : List Char) : Option (Kind × List Char) :=
  lineMarkerAux line kindsOrder

/-- First pass over the lines, collecting occurrences with their (0-based)
line indices (`all_sections`). -/
def scanOccs (i : Nat) : List (List Char) → List Occ
  | [] => []
  | line :: rest =>
    match lineMarker line with
    | some (k, t) =>
      { title := pyStrip t, kind := k, rank := rankOf k, lineIdx := i,
        rawLine := pyStrip line } :: scanOccs (i + 1) rest
    | none => scanOccs (i + 1) rest

/-- A hierarchy node of the extraction output (the per-title dict value). -/
structure Node where
  content : List Char
  level : Kind
  line : List Char
  rank : Nat
  deriving DecidableEq, Repr

instance : Inhabited Node :=
  ⟨{ content := [], level := Kind.chapter, line := [], rank := 0 }⟩

/-- End line index of a full-hierarchy span: first later occurrence whose
rank is ≤ the current rank, else end of document. -/
def fullEnd (r : Nat) (len : Nat) : List Occ → Nat
  | [] => len
  | o :: rest => if o.rank ≤ r then o.lineIdx else fullEnd r len rest

/-- End line index of a content-only span: the very next occurrence,
else end of document. -/
def coEnd (len : Nat) : List Occ → Nat
  | [] => len
  | o :: _ => o.lineIdx

/-- Per-occurrence dict entries of `extract_sections`' second pass. -/
def fullEntries (lines : List (List Char)) : List Occ → List (List Char × Node)
  | [] => []
  | o :: rest =>
    (o.title,
      { content := pyStrip (joinN (pySlice lines (o.lineIdx + 1) (fullEnd o.rank lines.length rest))),
        level := o.kind, line := o.rawLine, rank := o.rank }) :: fullEntries lines rest

/-- Per-occurrence dict entries of `extract_sections_content_only`'s
second pass. -/
def coEntries (lines : List (List Char)) : List Occ → List (List Char × Node)
  | [] => []
  | o :: rest =>
    (o.title,
      { content := pyStrip (joinN (pySlice lines (o.lineIdx + 1) (coEnd lines.length rest))),
        level := o.kind, line := o.rawLine, rank := o.rank }) :: coEntries lines rest

/-!
Python dict as an association list (unique keys, overwrite keeps place)
-/

/-- `d[k] = v` on a dict with unique keys: replace in place or append. -/
def setEntry {V : Type} : List (List Char × V) → List Char → V → List (List Char × V)
  | [], k, v => [(k, v)]
  | (k0, v0) :: rest, k, v =>
    if k0 = k then (k0, v) :: rest else (k0, v0) :: setEntry rest k v

/-- `d[k]` / `k in d`. -/
def lookupKey {V : Type} (k : List Char) : List (List Char × V) → Option V
  | [] => none
  | (k0, v) :: rest => if k0 = k then some v else lookupKey k rest

/-- Build a dict by consecutive assignments. -/
def buildDict {V : Type} (entries : List (List Char × V)) : List (List Char × V) :=
  entries.foldl (fun d p => setEntry d p.1 p.2) []

/-- `extract_sections`: title-keyed dict of full-hierarchy nodes. -/
def extract_sections (text : List Char) : List (List Char × Node) :=
  let lines := pySplit text
  buildDict (fullEntries lines (scanOccs 0 lines))

/-- `extract_sections_content_only`: title-keyed dict of content-only nodes. -/
def extract_sections_content_only (text : List Char) : List (List Char × Node) :=
  let lines := pySplit text
  buildDict (coEntries lines (scanOccs 0 lines))

/-!
`find_section_in_template`
-/

/-- One line of the end-of-span scan: the loop first tests the line for
`\end{document}`, then runs the inner `for check_level, check_pattern`
loop; a non-stopping marker does not break out of the inner loop, so a
line stops the scan iff it contains the sentinel or some kind's pattern
matches with `should_stop` true. -/
def stopLineB (incl : Bool) (curRank : Nat) (line : List Char) : Bool :=
  containsSub endDocPat line ||
    kindsOrder.any (fun ck =>
      (genSearch ck line).isSome && (!incl || decide (rankOf ck ≤ curRank)))

/-- Index of the first stopping line (the `for line_idx, line in enumerate`
loop with its early returns). -/
def scanStop (incl : Bool) (curRank : Nat) : List (List Char) → Option Nat
  | [] => none
  | line :: rest =>
    if stopLineB incl curRank line then some 0
    else (scanStop incl curRank rest).map (· + 1)

/-- `end_pos` of `find_section_in_template`:
`start_pos + len('\n'.join(lines[:line_idx]))` at the first stopping line,
else `len(template_content)`. -/
def computeEnd (text : List Char) (startPos curRank : Nat) (incl : Bool) : Nat :=
  let lines := pySplit (text.drop startPos)
  match scanStop incl curRank lines with
  | some j => startPos + (joinN (lines.take j)).length
  | none => text.length

/-- The `for pattern, level in patterns` loop: first kind (in fixed order)
whose literal pattern matches anywhere wins. -/
def fsLoop (text title : List Char) (incl : Bool) : List Kind → Option (Nat × Nat × Kind)
  | [] => none
  | k :: ks =>
    match searchLit k title text with
    | some (_, e0) => some (e0, computeEnd text e0 (rankOf k) incl, k)
    | none => fsLoop text title incl ks

/-- `find_section_in_template(template_content, section_title, include_children)`;
returns `(start_pos, end_pos, level)`, with `start_pos = match.end()`. -/
def find_section_in_template (text title : List Char) (incl : Bool) :
    Option (Nat × Nat × Kind) :=
  fsLoop text title incl kindsOrder

/-!
Splice engine (migrate_content, first and second pass)
-/

/-- One collected replacement (`replacements` list entry); `stop` is the
dict's `end` key (`end` is a Lean keyword). -/
structure Replacement where
  start : Nat
  stop : Nat
  content : List Char
  oldSection : List Char
  newSection : List Char
  isMapped : Bool
  deriving DecidableEq, Repr

/-- A section that must be created (`sections_to_create` entry). -/
structure Pending where
  title : List Char
  content : List Char
  deriving DecidableEq, Repr

/-- One splice: `f"{before}\n{content}\n{after}"` with
`before = migrated_content[:start]`, `after = migrated_content[end:]`. -/
def applyOne (text : List Char) (r : Replacement) : List Char :=
  text.take r.start ++ '\n' :: (r.content ++ '\n' :: text.drop r.stop)

/-- Stable insertion step for sorting by `start` descending (Python's
`list.sort(key=..., reverse=True)` is stable: on ties the earlier
element stays first). -/
def insertDesc (r : Replacement) : List Replacement → List Replacement
  | [] => [r]
  | s :: rest => if s.start ≤ r.start then r :: s :: rest else s :: insertDesc r rest

/-- `replacements.sort(key=lambda x: x['start'], reverse=True)`. -/
def sortDesc : List Replacement → List Replacement
  | [] => []
  | r :: rest => insertDesc r (sortDesc rest)

/-- The second pass: sort descending by start, then apply each
replacement to the evolving buffer. -/
def applyReplacements (text : List Char) (ops : List Replacement) : List Char :=
  (sortDesc ops).foldl applyOne text

/-- Body of the `for old_section, new_section in section_mapping.items()`
loop: a missing source title or a missing destination span contributes
nothing (only a log line). -/
def mapStep (oldSections : List (List Char × Node)) (newContent : List Char)
    (incl : Bool) (acc : List Replacement) (p : List Char × List Char) :
    List Replacement :=
  match lookupKey p.1 oldSections with
  | some node =>
    match find_section_in_template newContent p.2 incl with
    | some (s, e, _) =>
      acc ++ [{ start := s, stop := e, content := pyStrip node.content,
                oldSection := p.1, newSection := p.2, isMapped := true }]
    | none => acc
  | none => acc

/-- First pass over `section_mapping`. -/
def collectMappingOps (oldSections : List (List Char × Node))
    (mapping : List (List Char × List Char)) (newContent : List Char) (incl : Bool) :
    List Replacement :=
  mapping.foldl (mapStep oldSections newContent incl) []

/-- Body of the `for section_title, content in new_sections_content.items()`
loop: a found destination span yields a replacement, a missing one a
pending creation. -/
def newStep (newContent : List Char) (incl : Bool)
    (acc : List Replacement × List Pending) (p : List Char × List Char) :
    List Replacement × List Pending :=
  match find_section_in_template newContent p.1 incl with
  | some (s, e, _) =>
    (acc.1 ++ [{ start := s, stop := e, content := pyStrip p.2,
                 oldSection := "NEW_CONTENT".data, newSection := p.1,
                 isMapped := false }], acc.2)
  | none => (acc.1, acc.2 ++ [{ title := p.1, content := pyStrip p.2 }])

/-- First pass over `new_sections_content`. -/
def collectNewOps (nsc : List (List Char × List Char)) (newContent : List Char)
    (incl : Bool) : List Replacement × List Pending :=
  nsc.foldl (newStep newContent incl) ([], [])

/-- The whole collection phase in program order: mapping replacements
first, then new-content replacements and pending creations. -/
def collectAll (oldSections : List (List Char × Node))
    (mapping nsc : List (List Char × List Char)) (newContent : List Char)
    (incl : Bool) : List Replacement × List Pending :=
  let a := collectMappingOps oldSections mapping newContent incl
  let bp := collectNewOps nsc newContent incl
  (a ++ bp.1, bp.2)

/-- Level chosen for a created section: new template, then old template,
then default `\section`. -/
def pendingLevel (newS oldS : List (List Char × Node)) (title : List Char) : Kind :=
  match lookupKey title newS with
  | some nd => nd.level
  | none =>
    match lookupKey title oldS with
    | some nd => nd.level
    | none => Kind.sect

/-- `new_sections_text` accumulation:
`+= f"\n\\{section_level}{{{section_title}}}\n{section_content}\n"`. -/
def pendingBlock (newS oldS : List (List Char × Node)) (pendings : List Pending) :
    List Char :=
  pendings.foldl (fun acc pe =>
    acc ++ '\n' :: '\\' :: (kindName (pendingLevel newS oldS pe.title) ++
      '{' :: (pe.title ++ '}' :: '\n' :: (pe.content ++ ['\n'])))) []

/-- Creation of missing sections: insert the accumulated block plus `"\n"`
before the first `\end{document}` (via `re.search`); without a terminator
only a warning is logged. -/
def insertPending (newS oldS : List (List Char × Node)) (pendings : List Pending)
    (text : List Char) : List Char :=
  if pendings = [] then text
  else
    match (findOcc endDocPat text).head? with
    | none => text
    | some p =>
      text.take p ++ (pendingBlock newS oldS pendings ++ '\n' :: text.drop p)

/-!
Terminator normalizer (post-processing)
-/

/-- Duplicate-terminator removal: the match list is computed once, and all
matches except the last are cut out of the *evolving* buffer using their
*original* offsets. -/
def dedupTerminators (text : List Char) : List Char :=
  let ms := findOcc endDocPat text
  if 1 < ms.length then
    ms.dropLast.foldl
      (fun buf m => buf.take m ++ buf.drop (m + endDocPat.length)) text
  else text

/-- The trailing-content check
`re.search(r'\\(section|subsection|subsubsection|paragraph)(\*?)\{', after_end)`:
`chapter` is absent from the alternation. -/
def relocKinds : List Kind := [Kind.sect, Kind.subsect, Kind.subsubsect, Kind.paragraph]

/-- Does `\KIND` (optionally starred) followed by `{` occur at the head of `s`
for one of the relocation kinds? -/
def relocHere (s : List Char) : Bool :=
  relocKinds.any (fun k =>
    ('\\' :: (kindName k ++ ['*', '{'])).isPrefixOf s ||
    ('\\' :: (kindName k ++ ['{'])).isPrefixOf s)

def trailingMarkerFound (s : List Char) : Bool :=
  (List.range (s.length + 1)).any (fun i => relocHere (s.drop i))

/-- Relocation of structural content trailing the last retained terminator:
`f"{before_end}\n{content_after}\n\n{terminator}\n"`. -/
def fixTrailing (text : List Char) : List Char :=
  match (findOcc endDocPat text).getLast? with
  | none => text
  | some m =>
    let afterEnd := text.drop (m + endDocPat.length)
    if trailingMarkerFound afterEnd then
      let contentAfter := pyStrip afterEnd
      if contentAfter = [] then text
      else
        text.take m ++ '\n' ::
          (contentAfter ++ '\n' :: '\n' :: (endDocPat ++ ['\n']))
    else text

/-!
The whole in-memory pipeline of `migrate_content`
-/

/-- `migrate_content` minus file I/O, backups, logging and the report:
extraction of both templates, collection, reverse-order splicing,
creation of missing sections, terminator dedup, trailing relocation. -/
def migrateContent (mapping nsc : List (List Char × List Char)) (granular : Bool)
    (oldText newText : List Char) : List Char :=
  let oldS := if granular then extract_sections_content_only oldText
              else extract_sections oldText
  let newS := if granular then extract_sections_content_only newText
              else extract_sections newText
  let incl := !granular
  let op := collectAll oldS mapping nsc newText incl
  fixTrailing (dedupTerminators
    (insertPending newS oldS op.2 (applyReplacements newText op.1)))

/-!
Reference implementation (from the spec's words, for claim C1)

"a reference implementation that applies the same operations in ascending
`start_offset` order and recomputes offsets after each edit": after
applying `r`, a later operation `o` (which lies at or beyond `r.stop`) is
shifted so that it addresses the same characters of the rewritten buffer;
the replaced region `[r.start, r.stop)` became
`'\n' :: r.content ++ ['\n']` of length `r.content.length + 2`.
-/

def shiftAfter (r o : Replacement) : Replacement :=
  { o with
    start := r.start + r.content.length + 2 + (o.start - r.stop),
    stop := r.start + r.content.length + 2 + (o.stop - r.stop) }

/-- Apply operations in the given (ascending) order, recomputing the
offsets of all later operations after each edit.  The `Nat` fuel (one
unit per operation) only makes the recursion structural; `refApplyAsc`
supplies exactly the list length. -/
def refApplyAscAux : Nat → List Char → List Replacement → List Char
  | 0, text, _ => text
  | _ + 1, text, [] => text
  | fuel + 1, text, r :: rest =>
    refApplyAscAux fuel (applyOne text r) (rest.map (shiftAfter r))

def refApplyAsc (text : List Char) (ops : List Replacement) : List Char :=
  refApplyAscAux ops.length text ops

/-- Proof-side helper: right fold equivalent of applying a list of
operations in reverse (descending) order. -/
def applyRev (text : List Char) (ops : List Replacement) : List Char :=
  ops.foldr (fun op acc => applyOne acc op) text

/-!
Characterizing predicates (Prop level, used in claim statements)
-/

/-- The locator pattern `\\KIND\*?\{TITLE\}` matches at offset `p` of `text`. -/
def LitAt (k : Kind) (title text : List Char) (p : Nat) : Prop :=
  ∃ star rest, (star = [] ∨ star = ['*']) ∧
    text.drop p = '\\' :: (kindName k ++ (star ++ '{' :: (title ++ '}' :: rest)))

/-- The scanner pattern `\\KIND(\*?)\{([^}]+)\}` matches somewhere in `line`. -/
def MarkerOn (k : Kind) (line : List Char) : Prop :=
  ∃ pre star t rest, (star = [] ∨ star = ['*']) ∧ t ≠ [] ∧ '}' ∉ t ∧
    line = pre ++ '\\' :: (kindName k ++ (star ++ '{' :: (t ++ '}' :: rest)))

/-- A line at which the end-of-span scan of `find_section_in_template`
stops: it carries the terminator sentinel, or a marker that is a boundary
under the chosen policy (any marker when children are excluded, a marker
of rank ≤ the target's when they are included). -/
def StopLineP (incl : Bool) (curRank : Nat) (line : List Char) : Prop :=
  endDocPat <:+: line ∨
    ∃ k ∈ kindsOrder, MarkerOn k line ∧ (incl = true → rankOf k ≤ curRank)

/-- The kinds tried before `k` by `find_section_in_template`'s pattern loop. -/
def kindsBefore (k : Kind) : List Kind :=
  kindsOrder.takeWhile (fun k2 => k2 ≠ k)

/-!
Concrete inputs used by witnesses and counterexamples
-/

/-- Scenario-E style document: a section with direct text and one child. -/
def exEText : List Char := "\\section{A}\n text1\n\\subsection{B}\n text2".data

/-- Three terminator sentinels with one-character separators. -/
def exC2Text : List Char := "A\\end{document}B\\end{document}C\\end{document}D".data

/-- What the dedup step actually produces on `exC2Text`. -/
def exC2Mangled : List Char := "AB\\end{document}\x7dD".data

/-- What keeping exactly the last sentinel and deleting the earlier two
(and nothing else) would produce on `exC2Text`. -/
def exC2Expected : List Char := "ABC\\end{document}D".data

/-- A document where title `T` occurs first as a section, later as a chapter. -/
def exC4Text : List Char := "\\section{T}\nx\n\\chapter{T}\ny\n\\end{document}\n".data

/-- Trailing `\chapter` after the terminator. -/
def exC6Text : List Char := "body\n\\end{document}\n\\chapter{Stray}\ntext\n".data

/-- Trailing `\section` after the terminator. -/
def exC6bText : List Char := "body\n\\end{document}\n\\section{Stray}\ntext\n".data

/-- Two sections sharing one title. -/
def exC8Text : List Char := "\\section{Dup}\nfirst\n\\section{Dup}\nsecond\n".data

/-- A marker whose own line also carries the terminator sentinel. -/
def exC10Text : List Char := "\\section{T} x \\end{document}\nZ".data

/-- A one-entry extracted-sections dict for the collection-phase examples. -/
def exIntroNode : Node :=
  { content := "Hello".data, level := Kind.sect,
    line := "\\section{Intro}".data, rank := 1 }

def exOldSecs : List (List Char × Node) := [("Intro".data, exIntroNode)]

/-- A destination text that contains no section named `Missing`. -/
def exNewText : List Char := "\\section{Other}\nbody\n\\end{document}\n".data

/-- Source and destination documents for the end-to-end examples. -/
def exOldA : List Char := "\\section{Intro}\nHello\n\\end{document}\n".data

def exNewA : List Char := "\\section{Introduction}\nOLD\n\\end{document}\n".data

/-- Degenerate replacement operations: two empty spans at offset 0. -/
def exC1a : Replacement :=
  { start := 0, stop := 0, content := "X".data, oldSection := "o".data,
    newSection := "n".data, isMapped := true }

def exC1b : Replacement :=
  { start := 0, stop := 0, content := "Y".data, oldSection := "o".data,
    newSection := "m".data, isMapped := true }

/-- Two nonempty disjoint replacement operations on `"abcdef"`. -/
def exC1c : Replacement :=
  { start := 1, stop := 2, content := "P".data, oldSection := "o".data,
    newSection := "n".data, isMapped := true }

def exC1d : Replacement :=
  { start := 3, stop := 4, content := "Q".data, oldSection := "o".data,
    newSection := "m".data, isMapped := true }

/-!
Lemmas about the splice engine (claim C1)
-/

theorem take_append_left_of_le {α : Type} (A B : List α) (n : Nat) (h : n ≤ A.length) :
    (A ++ B).take n = A.take n := by
  rw [List.take_append_eq_append_take]
  have : n - A.length = 0 := by omega
  rw [this]
  simp

theorem drop_append_left_of_le {α : Type} (A B : List α) (n : Nat) (h : n ≤ A.length) :
    (A ++ B).drop n = A.drop n ++ B := by
  rw [List.drop_append_eq_append_drop]
  have : n - A.length = 0 := by omega
  rw [this]
  simp

theorem take_append_block {α : Type} (A B : List α) (m : Nat) :
    (A ++ B).take (A.length + m) = A ++ B.take m := by
  rw [List.take_append_eq_append_take, List.take_of_length_le (by omega)]
  congr 2
  omega

theorem drop_append_block {α : Type} (A B : List α) (m : Nat) :
    (A ++ B).drop (A.length + m) = B.drop m := by
  rw [List.drop_append_eq_append_drop, List.drop_of_length_le (by omega)]
  simp only [List.nil_append]
  congr 1
  omega

theorem applyRev_eq_foldl_reverse (text : List Char) (ops : List Replacement) :
    (ops.reverse).foldl applyOne text = applyRev text ops :=
  List.foldl_reverse ops applyOne text

theorem length_applyOne (text : List Char) (r : Replacement) (h : r.start ≤ text.length) :
    (applyOne text r).length =
      r.start + 1 + r.content.length + 1 + (text.length - r.stop) := by
  simp [applyOne, List.length_take, List.length_drop]
  omega

/-- Operations whose spans all lie at or beyond `k` do not disturb the
first `k` characters, and the result keeps length at least `k`. -/
theorem applyRev_inv :
    ∀ (ops : List Replacement) (text : List Char) (k : Nat),
      List.Pairwise (fun a b => a.stop ≤ b.start) ops →
      (∀ r ∈ ops, k ≤ r.start ∧ r.start ≤ r.stop ∧ r.stop ≤ text.length) →
      k ≤ text.length →
      k ≤ (applyRev text ops).length ∧ (applyRev text ops).take k = text.take k
  | [], _, _, _, _, hk => ⟨hk, rfl⟩
  | op :: rest, text, k, hp, hb, hk => by
    have hOp := hb op (List.mem_cons_self _ _)
    have hPc := List.pairwise_cons.mp hp
    have ih := applyRev_inv rest text op.stop hPc.2
      (fun r hr => ⟨hPc.1 r hr, (hb r (List.mem_cons_of_mem _ hr)).2⟩) hOp.2.2
    have hTlen : op.start ≤ (applyRev text rest).length := le_trans hOp.2.1 ih.1
    have hstep : applyRev text (op :: rest) = applyOne (applyRev text rest) op := rfl
    constructor
    · rw [hstep, length_applyOne _ _ hTlen]
      omega
    · rw [hstep]
      have h1 : (applyOne (applyRev text rest) op).take k =
          ((applyRev text rest).take op.start).take k := by
        simp only [applyOne]
        rw [List.take_append_eq_append_take]
        have hlen : ((applyRev text rest).take op.start).length = op.start := by
          rw [List.length_take]; omega
        rw [hlen]
        have : k - op.start = 0 := by omega
        rw [this]
        simp
      rw [h1, List.take_take]
      have hmin : k ⊓ op.start = k := by omega
      rw [hmin]
      calc (applyRev text rest).take k
          = ((applyRev text rest).take op.stop).take k := by
            rw [List.take_take]; congr 1; omega
        _ = (text.take op.stop).take k := by rw [ih.2]
        _ = text.take k := by rw [List.take_take]; congr 1; omega

/-- Commuting one edit past a disjoint edit further right: applying the
right edit first at original coordinates equals applying the left edit
first and the right edit at recomputed coordinates. -/
theorem applyOne_comm (T : List Char) (op o : Replacement)
    (h1 : op.start ≤ op.stop) (h2 : op.stop ≤ o.start) (h3 : o.start ≤ o.stop)
    (h4 : o.stop ≤ T.length) :
    applyOne (applyOne T o) op = applyOne (applyOne T op) (shiftAfter op o) := by
  have hA : (T.take o.start).length = o.start := by
    rw [List.length_take]; omega
  have hP : (T.take op.start).length = op.start := by
    rw [List.length_take]; omega
  have lhs1 : (applyOne T o).take op.start = T.take op.start := by
    simp only [applyOne]
    rw [take_append_left_of_le _ _ _ (by omega), List.take_take]
    congr 1
    omega
  have lhs2 : (applyOne T o).drop op.stop =
      (T.drop op.stop).take (o.start - op.stop) ++
        '\n' :: (o.content ++ '\n' :: T.drop o.stop) := by
    simp only [applyOne]
    rw [drop_append_left_of_le _ _ _ (by omega), List.drop_take]
  -- group `applyOne T op` as a block followed by `T.drop op.stop`
  have hsplit : applyOne T op =
      (T.take op.start ++ '\n' :: (op.content ++ ['\n'])) ++ T.drop op.stop := by
    simp [applyOne]
  have hQ : (T.take op.start ++ '\n' :: (op.content ++ ['\n'])).length =
      op.start + op.content.length + 2 := by
    simp [hP]
    omega
  have rhs1 : (applyOne T op).take (shiftAfter op o).start =
      T.take op.start ++ '\n' :: (op.content ++ '\n' ::
        (T.drop op.stop).take (o.start - op.stop)) := by
    rw [hsplit]
    show ((T.take op.start ++ '\n' :: (op.content ++ ['\n'])) ++ T.drop op.stop).take
        (op.start + op.content.length + 2 + (o.start - op.stop)) = _
    rw [← hQ, take_append_block]
    simp
  have rhs2 : (applyOne T op).drop (shiftAfter op o).stop = T.drop o.stop := by
    rw [hsplit]
    show ((T.take op.start ++ '\n' :: (op.content ++ ['\n'])) ++ T.drop op.stop).drop
        (op.start + op.content.length + 2 + (o.stop - op.stop)) = _
    rw [← hQ, drop_append_block, List.drop_drop]
    congr 1
    omega
  calc applyOne (applyOne T o) op
      = (applyOne T o).take op.start ++ '\n' :: (op.content ++ '\n' ::
          (applyOne T o).drop op.stop) := rfl
    _ = T.take op.start ++ '\n' :: (op.content ++ '\n' ::
          ((T.drop op.stop).take (o.start - op.stop) ++
            '\n' :: (o.content ++ '\n' :: T.drop o.stop))) := by rw [lhs1, lhs2]
    _ = (T.take op.start ++ '\n' :: (op.content ++ '\n' ::
          (T.drop op.stop).take (o.start - op.stop))) ++
          '\n' :: (o.content ++ '\n' :: T.drop o.stop) := by
        simp [List.append_assoc]
    _ = (applyOne T op).take (shiftAfter op o).start ++ '\n' ::
          ((shiftAfter op o).content ++ '\n' ::
            (applyOne T op).drop (shiftAfter op o).stop) := by
        rw [rhs1, rhs2]; rfl
    _ = applyOne (applyOne T op) (shiftAfter op o) := rfl

/-- Pulling the leftmost edit out of a reverse-order application of the
edits to its right (at recomputed coordinates). -/
theorem applyRev_shift (op : Replacement) :
    ∀ (rest : List Replacement) (T : List Char),
      op.start ≤ op.stop →
      List.Pairwise (fun a b => a.stop ≤ b.start) rest →
      (∀ r ∈ rest, op.stop ≤ r.start ∧ r.start ≤ r.stop ∧ r.stop ≤ T.length) →
      op.stop ≤ T.length →
      applyRev (applyOne T op) (rest.map (shiftAfter op)) =
        applyOne (applyRev T rest) op
  | [], _, _, _, _, _ => rfl
  | o :: rest2, T, hop, hp, hb, hlen => by
    have hPc := List.pairwise_cons.mp hp
    have hO := hb o (List.mem_cons_self _ _)
    have ih := applyRev_shift op rest2 T hop hPc.2
      (fun r hr => hb r (List.mem_cons_of_mem _ hr)) hlen
    have hstep : applyRev (applyOne T op) ((o :: rest2).map (shiftAfter op)) =
        applyOne (applyRev (applyOne T op) (rest2.map (shiftAfter op)))
          (shiftAfter op o) := rfl
    rw [hstep, ih]
    have hinv := applyRev_inv rest2 T o.stop hPc.2
      (fun r hr => ⟨hPc.1 r hr, (hb r (List.mem_cons_of_mem _ hr)).2⟩) hO.2.2
    have hcomm := applyOne_comm (applyRev T rest2) op o hop hO.1 hO.2.1 hinv.1
    rw [← hcomm]
    rfl

theorem refApplyAsc_cons (text : List Char) (r : Replacement) (rest : List Replacement) :
    refApplyAsc text (r :: rest) =
      refApplyAsc (applyOne text r) (rest.map (shiftAfter r)) := by
  show refApplyAscAux (rest.length + 1) text (r :: rest) =
    refApplyAscAux (rest.map (shiftAfter r)).length (applyOne text r)
      (rest.map (shiftAfter r))
  rw [List.length_map]
  rfl

/-- Reverse-order application without offset adjustment agrees with
ascending-order application with offset recomputation, for a chain of
in-bounds, ordered spans. -/
theorem applyRev_eq_refAsc :
    ∀ (ops : List Replacement) (text : List Char),
      List.Pairwise (fun a b => a.stop ≤ b.start) ops →
      (∀ r ∈ ops, r.start ≤ r.stop ∧ r.stop ≤ text.length) →
      applyRev text ops = refApplyAsc text ops
  | [], _, _, _ => rfl
  | op :: rest, text, hp, hb => by
    have hPc := List.pairwise_cons.mp hp
    have hOp := hb op (List.mem_cons_self _ _)
    have h1 : applyRev text (op :: rest) = applyOne (applyRev text rest) op := rfl
    have h2 : refApplyAsc text (op :: rest) =
        refApplyAsc (applyOne text op) (rest.map (shiftAfter op)) :=
      refApplyAsc_cons text op rest
    have hshift := applyRev_shift op rest text hOp.1 hPc.2
      (fun r hr => ⟨hPc.1 r hr, (hb r (List.mem_cons_of_mem _ hr)).1,
        (hb r (List.mem_cons_of_mem _ hr)).2⟩) hOp.2
    have hlen1 : (applyOne text op).length =
        op.start + 1 + op.content.length + 1 + (text.length - op.stop) :=
      length_applyOne text op (le_trans hOp.1 hOp.2)
    have hrec := applyRev_eq_refAsc (rest.map (shiftAfter op)) (applyOne text op)
      (by
        rw [List.pairwise_map]
        refine hPc.2.imp ?_
        intro a b hab
        simp only [shiftAfter]
        omega)
      (by
        intro r hr
        rw [List.mem_map] at hr
        obtain ⟨r0, hr0, rfl⟩ := hr
        have hb0 := hb r0 (List.mem_cons_of_mem _ hr0)
        have hb1 := hPc.1 r0 hr0
        simp only [shiftAfter]
        constructor
        · omega
        · rw [hlen1]
          omega)
    rw [h1, h2, ← hshift, hrec]
  termination_by ops => ops.length
  decreasing_by simp [List.length_map]

theorem insertDesc_append (r : Replacement) :
    ∀ l : List Replacement, (∀ s ∈ l, ¬ s.start ≤ r.start) → insertDesc r l = l ++ [r]
  | [], _ => rfl
  | s :: rest, h => by
    simp only [insertDesc]
    rw [if_neg (h s (List.mem_cons_self _ _)),
      insertDesc_append r rest (fun x hx => h x (List.mem_cons_of_mem _ hx))]
    rfl

/-- On a list whose starts strictly ascend, the engine's stable descending
sort is exactly list reversal. -/
theorem sortDesc_of_ascending :
    ∀ ops : List Replacement,
      List.Pairwise (fun a b => a.start < b.start) ops →
      sortDesc ops = ops.reverse
  | [], _ => rfl
  | op :: rest, hp => by
    have hPc := List.pairwise_cons.mp hp
    simp only [sortDesc]
    rw [sortDesc_of_ascending rest hPc.2, insertDesc_append]
    · simp
    · intro s hs
      rw [List.mem_reverse] at hs
      have := hPc.1 s hs
      omega

/-- C1 (corrected by adding nonemptiness of the spans): for operations
listed in ascending start order, with nonempty pairwise-disjoint spans
inside the original text, the Splice Engine's descending-order
application without offset adjustment (`applyReplacements`, which sorts
by `start` descending and folds `applyOne`) equals the ascending-order
reference implementation that recomputes offsets after each edit. -/
theorem claim_C1 (text : List Char) (ops : List Replacement)
    (hord : List.Pairwise (fun a b => a.stop ≤ b.start) ops)
    (hne : ∀ r ∈ ops, r.start < r.stop)
    (hbd : ∀ r ∈ ops, r.stop ≤ text.length) :
    applyReplacements text ops = refApplyAsc text ops := by
  have hstrict : List.Pairwise (fun a b => a.start < b.start) ops := by
    refine hord.imp_of_mem ?_
    intro a b ha _ h
    exact lt_of_lt_of_le (hne a ha) h
  unfold applyReplacements
  rw [sortDesc_of_ascending ops hstrict, applyRev_eq_foldl_reverse]
  exact applyRev_eq_refAsc ops text hord
    (fun r hr => ⟨le_of_lt (hne r hr), hbd r hr⟩)

theorem claim_C1_witness :
    applyReplacements "abcdef".data [exC1c, exC1d] =
      refApplyAsc "abcdef".data [exC1c, exC1d] :=
  claim_C1 "abcdef".data [exC1c, exC1d] (by decide) (by decide) (by decide)

/-- C1 as stated is false: two operations with empty spans at the same
offset have pairwise non-overlapping (disjoint, both empty) spans inside
the original text, and the list is simultaneously in ascending and in
descending start order, yet the engine's descending application differs
from the ascending reference (`"\nY\n\nX\n"` versus `"\nX\n\nY\n"`). -/
theorem claim_C1_counterexample :
    (∀ a ∈ [exC1a, exC1b], ∀ b ∈ [exC1a, exC1b], a ≠ b →
      a.stop ≤ b.start ∨ b.stop ≤ a.start) ∧
    (∀ r ∈ [exC1a, exC1b], r.start ≤ r.stop ∧ r.stop ≤ ([] : List Char).length) ∧
    (∀ a ∈ [exC1a, exC1b], ∀ b ∈ [exC1a, exC1b], a.start = b.start) ∧
    applyReplacements ([] : List Char) [exC1a, exC1b] ≠
      refApplyAsc ([] : List Char) [exC1a, exC1b] := by
  refine ⟨by decide, by decide, by decide, ?_⟩
  decide

/-!
Terminator deduplication (claim C2)
-/

/-- C2 is right about the intended contract and wrong about the code: on
three sentinels the stale-offset removal loop deletes the non-sentinel
character `C`, keeps the *middle* sentinel and leaves a stray `}` from
the last one.  `exC2Expected` is what "keep exactly the last occurrence,
delete the earlier ones, alter nothing else" demands. -/
theorem claim_C2_theorem :
    findOcc endDocPat exC2Text = [1, 16, 31] ∧
    dedupTerminators exC2Text = exC2Mangled ∧
    ('C' ∈ exC2Text ∧ 'C' ∉ dedupTerminators exC2Text) ∧
    dedupTerminators exC2Text ≠ exC2Expected := by
  refine ⟨by decide, by decide, ⟨by decide, by decide⟩, by decide⟩

/-!
The collection phase (claims C3 and C9)
-/

theorem collectNew_aux (txt : List Char) (incl : Bool) :
    ∀ (nsc : List (List Char × List Char)) (acc : List Replacement × List Pending),
      (nsc.foldl (newStep txt incl) acc).2
      = acc.2 ++ nsc.filterMap (fun p =>
          if find_section_in_template txt p.1 incl = none then
            some { title := p.1, content := pyStrip p.2 } else none)
  | [], acc => by simp
  | p :: rest, acc => by
    rw [List.foldl_cons, collectNew_aux txt incl rest, List.filterMap_cons]
    cases h : find_section_in_template txt p.1 incl with
    | some v =>
      obtain ⟨s, e, k⟩ := v
      simp [newStep, h]
    | none =>
      simp [newStep, h]

/-- A `section_mapping` entry whose destination title has no located span
leaves the mapping fold's accumulator untouched. -/
theorem collectMapping_skip_dest (oldS : List (List Char × Node))
    (txt : List Char) (incl : Bool) (o n : List Char)
    (hfind : find_section_in_template txt n incl = none)
    (acc : List Replacement) :
    mapStep oldS txt incl acc (o, n) = acc := by
  cases h : lookupKey o oldS with
  | some node => simp [mapStep, h, hfind]
  | none => simp [mapStep, h]

/-- A `section_mapping` entry whose source title is absent leaves the
mapping fold's accumulator untouched. -/
theorem collectMapping_skip_src (oldS : List (List Char × Node))
    (txt : List Char) (incl : Bool) (o n : List Char)
    (hlook : lookupKey o oldS = none)
    (acc : List Replacement) :
    mapStep oldS txt incl acc (o, n) = acc := by
  simp [mapStep, hlook]

theorem collectMappingOps_middle (oldS : List (List Char × Node))
    (m1 m2 : List (List Char × List Char)) (o n : List Char)
    (txt : List Char) (incl : Bool)
    (hskip : ∀ acc : List Replacement, mapStep oldS txt incl acc (o, n) = acc) :
    collectMappingOps oldS (m1 ++ (o, n) :: m2) txt incl =
      collectMappingOps oldS (m1 ++ m2) txt incl := by
  unfold collectMappingOps
  rw [List.foldl_append, List.foldl_append, List.foldl_cons, hskip]

/-!
Trailing-content relocation (claim C6)
-/

theorem pyStrip_ne_nil_of_mem (s : List Char) (c : Char) (hc : c ∈ s)
    (hw : pyWS c = false) : pyStrip s ≠ [] := by
  intro hstrip
  have hX : ∀ x ∈ s.dropWhile pyWS, pyWS x = true := by
    unfold pyStrip rstrip at hstrip
    have h0 : (s.dropWhile pyWS).reverse.dropWhile pyWS = [] := by
      have := congrArg List.reverse hstrip
      simpa using this
    intro x hx
    exact List.dropWhile_eq_nil_iff.mp h0 x (List.mem_reverse.mpr hx)
  have hsplit := List.takeWhile_append_dropWhile pyWS s
  rw [← hsplit] at hc
  rcases List.mem_append.mp hc with h | h
  · have := List.mem_takeWhile_imp h
    rw [hw] at this
    exact Bool.false_ne_true this
  · have := hX c h
    rw [hw] at this
    exact Bool.false_ne_true this

theorem trailing_strip_ne_nil (s : List Char)
    (h : trailingMarkerFound s = true) : pyStrip s ≠ [] := by
  unfold trailingMarkerFound at h
  rw [List.any_eq_true] at h
  obtain ⟨i, _, hi⟩ := h
  unfold relocHere at hi
  rw [List.any_eq_true] at hi
  obtain ⟨k, _, hk⟩ := hi
  have hmem : '\\' ∈ s.drop i := by
    rw [Bool.or_eq_true] at hk
    rcases hk with hk | hk <;>
    · rw [List.isPrefixOf_iff_prefix] at hk
      obtain ⟨t, ht⟩ := hk
      rw [← ht]
      simp
  exact pyStrip_ne_nil_of_mem s '\\' (List.drop_subset i s hmem) (by decide)

/-- C6 (corrected to the four kinds actually tested): when a trailing
`\section`/`\subsection`/`\subsubsection`/`\paragraph` command follows
the last retained terminator, the whole trailing region (whatever it
contains) is moved before the terminator, set off by a blank line, and
the terminator followed by a newline ends the document. -/
theorem claim_C6 (text : List Char) (m : Nat)
    (hm : (findOcc endDocPat text).getLast? = some m)
    (hfound : trailingMarkerFound (text.drop (m + endDocPat.length)) = true) :
    fixTrailing text =
      text.take m ++ '\n' ::
        (pyStrip (text.drop (m + endDocPat.length)) ++ '\n' :: '\n' ::
          (endDocPat ++ ['\n'])) := by
  unfold fixTrailing
  rw [hm]
  simp only [if_pos hfound, if_neg (trailing_strip_ne_nil _ hfound)]

theorem claim_C6_witness :
    fixTrailing exC6bText =
      exC6bText.take 5 ++ '\n' ::
        (pyStrip (exC6bText.drop (5 + endDocPat.length)) ++ '\n' :: '\n' ::
          (endDocPat ++ ['\n'])) :=
  claim_C6 exC6bText 5 (by decide) (by decide)

/-- C6 as stated is false: a `\chapter` command trailing the sole
terminator is a recognized structural marker, yet the normalizer leaves
the document unchanged (the relocation pattern omits `chapter`). -/
theorem claim_C6_counterexample :
    (findOcc endDocPat exC6Text).getLast? = some 5 ∧
    containsSub ('\\' :: ("chapter".data ++ ['{']))
      (exC6Text.drop (5 + endDocPat.length)) = true ∧
    fixTrailing exC6Text = exC6Text := by
  refine ⟨by decide, by decide, by decide⟩

/-!
Claims C3 and C9: missing-title handling in the collection phase
-/

/-- C3 (corrected): pending creations are recorded exactly for the
`new_sections_content` entries whose destination title has no located
span; a `section_mapping` entry whose destination title has no located
span is skipped outright — it contributes neither a replacement
operation nor a pending creation. -/
theorem claim_C3 :
    (∀ (oldS : List (List Char × Node)) (mapping nsc : List (List Char × List Char))
        (txt : List Char) (incl : Bool),
      (collectAll oldS mapping nsc txt incl).2 =
        nsc.filterMap (fun p =>
          if find_section_in_template txt p.1 incl = none then
            some { title := p.1, content := pyStrip p.2 } else none)) ∧
    (∀ (oldS : List (List Char × Node)) (m1 m2 nsc : List (List Char × List Char))
        (o n txt : List Char) (incl : Bool),
      find_section_in_template txt n incl = none →
      collectAll oldS (m1 ++ (o, n) :: m2) nsc txt incl =
        collectAll oldS (m1 ++ m2) nsc txt incl) := by
  constructor
  · intro oldS mapping nsc txt incl
    show (collectNewOps nsc txt incl).2 = _
    unfold collectNewOps
    rw [collectNew_aux txt incl nsc ([], [])]
    rfl
  · intro oldS m1 m2 nsc o n txt incl hfind
    unfold collectAll
    rw [collectMappingOps_middle oldS m1 m2 o n txt incl
      (collectMapping_skip_dest oldS txt incl o n hfind)]

theorem claim_C3_witness :
    (collectAll exOldSecs [("Intro".data, "Missing".data)]
        [("Meta".data, "body".data)] exNewText true).2 =
      [{ title := "Meta".data, content := "body".data }] ∧
    collectAll exOldSecs [("A".data, "Missing".data)] [] exNewText true =
      collectAll exOldSecs [] [] exNewText true := by
  constructor
  · rw [claim_C3.1 exOldSecs [("Intro".data, "Missing".data)]
      [("Meta".data, "body".data)] exNewText true]
    decide
  · exact claim_C3.2 exOldSecs [] [] [] "A".data "Missing".data exNewText true
      (by decide)

/-- C3 as stated is false: here the mapping entry's source title exists,
its destination title has no located span, and the collection phase
records nothing at all — no operation and no pending creation — and the
entry's content is absent from the final document. -/
theorem claim_C3_counterexample :
    lookupKey "Intro".data exOldSecs = some exIntroNode ∧
    find_section_in_template exNewText "Missing".data true = none ∧
    collectAll exOldSecs [("Intro".data, "Missing".data)] [] exNewText true =
      ([], []) ∧
    migrateContent [("Intro".data, "Missing".data)] [] false exOldA exNewText =
      exNewText ∧
    containsSub "Hello".data exNewText = false := by
  refine ⟨by decide, by decide, by decide, by decide, by decide⟩

/-- C9 (confirmed): a mapping entry whose source title is not among the
extracted source sections contributes nothing to the collection phase,
and removing it does not change the final migrated document. -/
theorem claim_C9 (m1 m2 nsc : List (List Char × List Char)) (o n : List Char)
    (granular : Bool) (oldText newText : List Char)
    (hlook : lookupKey o (if granular then extract_sections_content_only oldText
      else extract_sections oldText) = none) :
    collectAll (if granular then extract_sections_content_only oldText
        else extract_sections oldText) (m1 ++ (o, n) :: m2) nsc newText (!granular) =
      collectAll (if granular then extract_sections_content_only oldText
        else extract_sections oldText) (m1 ++ m2) nsc newText (!granular) ∧
    migrateContent (m1 ++ (o, n) :: m2) nsc granular oldText newText =
      migrateContent (m1 ++ m2) nsc granular oldText newText := by
  have hcoll : collectAll (if granular then extract_sections_content_only oldText
      else extract_sections oldText) (m1 ++ (o, n) :: m2) nsc newText (!granular) =
      collectAll (if granular then extract_sections_content_only oldText
      else extract_sections oldText) (m1 ++ m2) nsc newText (!granular) := by
    unfold collectAll
    rw [collectMappingOps_middle _ m1 m2 o n newText (!granular)
      (collectMapping_skip_src _ newText (!granular) o n hlook)]
  refine ⟨hcoll, ?_⟩
  show fixTrailing _ = fixTrailing _
  rw [hcoll]

/-!
Dictionary lemmas (claims C7 and C8)
-/

theorem lookupKey_setEntry {V : Type} (d : List (List Char × V)) (a k : List Char)
    (v : V) :
    lookupKey a (setEntry d k v) = if k = a then some v else lookupKey a d := by
  induction d with
  | nil =>
    by_cases h : k = a <;> simp [setEntry, lookupKey, h]
  | cons p rest ih =>
    obtain ⟨k0, v0⟩ := p
    by_cases h0 : k0 = k
    · subst h0
      by_cases h : k0 = a <;> simp [setEntry, lookupKey, h]
    · by_cases h : k0 = a
      · subst h
        have : ¬ k = k0 := fun hh => h0 hh.symm
        simp [setEntry, lookupKey, h0, this]
      · simp [setEntry, lookupKey, h0, h, ih]

theorem lookupKey_append {V : Type} (a : List Char) (l1 l2 : List (List Char × V)) :
    lookupKey a (l1 ++ l2) =
      match lookupKey a l1 with
      | some v => some v
      | none => lookupKey a l2 := by
  induction l1 with
  | nil => simp [lookupKey]
  | cons p rest ih =>
    by_cases h : p.1 = a
    · simp [lookupKey, h]
    · simp [lookupKey, h, ih]

theorem lookupKey_foldl_setEntry {V : Type} (a : List Char) :
    ∀ (entries : List (List Char × V)) (d0 : List (List Char × V)),
      lookupKey a (entries.foldl (fun d p => setEntry d p.1 p.2) d0) =
        match lookupKey a entries.reverse with
        | some v => some v
        | none => lookupKey a d0
  | [], d0 => by simp [lookupKey]
  | p :: rest, d0 => by
    rw [List.foldl_cons, lookupKey_foldl_setEntry a rest (setEntry d0 p.1 p.2)]
    rw [List.reverse_cons, lookupKey_append]
    cases hr : lookupKey a rest.reverse with
    | some v => rfl
    | none =>
      rw [lookupKey_setEntry]
      by_cases h : p.1 = a <;> simp [lookupKey, h]

theorem lookupKey_buildDict {V : Type} (a : List Char)
    (entries : List (List Char × V)) :
    lookupKey a (buildDict entries) = lookupKey a entries.reverse := by
  unfold buildDict
  rw [lookupKey_foldl_setEntry a entries []]
  cases lookupKey a entries.reverse <;> simp [lookupKey]

theorem lookupKey_reverse_eq_getLast {V : Type} (a : List Char)
    (l : List (List Char × V)) :
    lookupKey a l.reverse =
      ((l.filter (fun p => decide (p.1 = a))).getLast?).map Prod.snd := by
  induction l using List.reverseRecOn with
  | nil => simp [lookupKey]
  | append_singleton l p ih =>
    rw [List.reverse_append, List.filter_append]
    simp only [List.reverse_singleton, List.singleton_append]
    by_cases h : p.1 = a
    · simp [lookupKey, h]
    · simp only [lookupKey, h, if_neg]
      rw [ih]
      simp [h]

theorem lookupKey_eq_none_iff {V : Type} (a : List Char) (l : List (List Char × V)) :
    lookupKey a l = none ↔ a ∉ l.map Prod.fst := by
  induction l with
  | nil => simp [lookupKey]
  | cons p rest ih =>
    obtain ⟨k0, v0⟩ := p
    simp only [lookupKey, List.map_cons, List.mem_cons]
    by_cases h : k0 = a
    · subst h
      rw [if_pos rfl]
      constructor
      · intro hc
        exact absurd hc (Option.some_ne_none v0)
      · intro hc
        exact absurd (Or.inl rfl) hc
    · rw [if_neg h, ih]
      constructor
      · intro hc hor
        rcases hor with h1 | h1
        · exact h h1.symm
        · exact hc h1
      · intro hc h1
        exact hc (Or.inr h1)

theorem map_fst_setEntry {V : Type} [Inhabited V] (d : List (List Char × V)) (k : List Char) (v : V) :
    (setEntry d k v).map Prod.fst =
      if k ∈ d.map Prod.fst then d.map Prod.fst else d.map Prod.fst ++ [k] := by
  induction d with
  | nil => simp [setEntry]
  | cons p rest ih =>
    obtain ⟨k0, v0⟩ := p
    by_cases h : k0 = k
    · subst h
      simp [setEntry]
    · have h2 : ¬ k = k0 := fun hh => h hh.symm
      simp only [setEntry, if_neg h, List.map_cons, ih, List.mem_cons]
      by_cases hm : k ∈ rest.map Prod.fst
      · simp [hm, h2]
      · simp [hm, h2]

theorem mem_map_fst_setEntry {V : Type} [Inhabited V] [Inhabited V] (d : List (List Char × V)) (a k : List Char)
    (v : V) :
    a ∈ (setEntry d k v).map Prod.fst ↔ a ∈ d.map Prod.fst ∨ a = k := by
  rw [map_fst_setEntry]
  by_cases hm : k ∈ d.map Prod.fst
  · rw [if_pos hm]
    constructor
    · exact fun h => Or.inl h
    · rintro (h | rfl)
      · exact h
      · exact hm
  · rw [if_neg hm]
    simp

theorem nodup_map_fst_setEntry {V : Type} [Inhabited V] [Inhabited V] (d : List (List Char × V)) (k : List Char)
    (v : V) (h : (d.map Prod.fst).Nodup) : ((setEntry d k v).map Prod.fst).Nodup := by
  rw [map_fst_setEntry]
  by_cases hm : k ∈ d.map Prod.fst
  · rw [if_pos hm]; exact h
  · rw [if_neg hm]
    rw [List.nodup_append]
    exact ⟨h, List.nodup_singleton k, by simpa using fun hk => hm hk⟩

theorem nodup_map_fst_foldl {V : Type} [Inhabited V] :
    ∀ (entries : List (List Char × V)) (d0 : List (List Char × V)),
      (d0.map Prod.fst).Nodup →
      (((entries.foldl (fun d p => setEntry d p.1 p.2) d0)).map Prod.fst).Nodup
  | [], _, h => h
  | p :: rest, d0, h => by
    rw [List.foldl_cons]
    exact nodup_map_fst_foldl rest _ (nodup_map_fst_setEntry d0 p.1 p.2 h)

theorem mem_map_fst_foldl {V : Type} [Inhabited V] (a : List Char) :
    ∀ (entries : List (List Char × V)) (d0 : List (List Char × V)),
      a ∈ ((entries.foldl (fun d p => setEntry d p.1 p.2) d0)).map Prod.fst ↔
        a ∈ d0.map Prod.fst ∨ a ∈ entries.map Prod.fst
  | [], d0 => by simp
  | p :: rest, d0 => by
    rw [List.foldl_cons, mem_map_fst_foldl a rest _]
    rw [mem_map_fst_setEntry]
    simp only [List.map_cons, List.mem_cons]
    constructor
    · rintro ((h | h) | h)
      · exact Or.inl h
      · exact Or.inr (Or.inl h)
      · exact Or.inr (Or.inr h)
    · rintro (h | h | h)
      · exact Or.inl (Or.inl h)
      · exact Or.inl (Or.inr h)
      · exact Or.inr h

theorem nodup_map_fst_buildDict {V : Type} [Inhabited V] (entries : List (List Char × V)) :
    ((buildDict entries).map Prod.fst).Nodup :=
  nodup_map_fst_foldl entries [] List.nodup_nil

theorem mem_map_fst_buildDict {V : Type} [Inhabited V] (a : List Char)
    (entries : List (List Char × V)) :
    a ∈ (buildDict entries).map Prod.fst ↔ a ∈ entries.map Prod.fst := by
  unfold buildDict
  rw [mem_map_fst_foldl]
  simp

theorem countKey_eq_one {V : Type} [Inhabited V] (a : List Char) :
    ∀ d : List (List Char × V), (d.map Prod.fst).Nodup → a ∈ d.map Prod.fst →
      d.countP (fun p => decide (p.1 = a)) = 1
  | [], _, hmem => by simp at hmem
  | p :: rest, hnd, hmem => by
    obtain ⟨k0, v0⟩ := p
    simp only [List.map_cons, List.nodup_cons] at hnd
    simp only [List.map_cons, List.mem_cons] at hmem
    rw [List.countP_cons]
    by_cases h : k0 = a
    · subst h
      have hz : rest.countP (fun p => decide (p.1 = k0)) = 0 := by
        rw [List.countP_eq_zero]
        intro q hq hdec
        rw [decide_eq_true_eq] at hdec
        exact hnd.1 (hdec ▸ List.mem_map_of_mem Prod.fst hq)
      simp [hz]
    · have hmem2 : a ∈ rest.map Prod.fst := by
        rcases hmem with h1 | h1
        · exact absurd h1.symm h
        · exact h1
      rw [countKey_eq_one a rest hnd.2 hmem2]
      simp [h]

/-!
Prefix and strip lemmas (claim C7)
-/

theorem joinN_append_of_ne_nil :
    ∀ (xs ys : List (List Char)), xs ≠ [] → ys ≠ [] →
      joinN (xs ++ ys) = joinN xs ++ '\n' :: joinN ys
  | [], _, hx, _ => absurd rfl hx
  | [x], ys, _, hy => by
    cases ys with
    | nil => exact absurd rfl hy
    | cons y ys2 => simp [joinN]
  | x1 :: x2 :: xs, ys, _, hy => by
    have ih := joinN_append_of_ne_nil (x2 :: xs) ys (by simp) hy
    calc joinN ((x1 :: x2 :: xs) ++ ys)
        = x1 ++ '\n' :: joinN ((x2 :: xs) ++ ys) := rfl
      _ = x1 ++ '\n' :: (joinN (x2 :: xs) ++ '\n' :: joinN ys) := by rw [ih]
      _ = (x1 ++ '\n' :: joinN (x2 :: xs)) ++ '\n' :: joinN ys := by simp
      _ = joinN (x1 :: x2 :: xs) ++ '\n' :: joinN ys := rfl

theorem prefix_joinN_take (L : List (List Char)) (m : Nat) :
    joinN (L.take m) <+: joinN L := by
  by_cases h1 : L.take m = []
  · rw [h1]
    exact List.nil_prefix
  · by_cases h2 : L.drop m = []
    · have : m ≥ L.length := by
        by_contra hlt
        push_neg at hlt
        have := List.length_drop m L
        rw [h2] at this
        simp at this
        omega
      rw [List.take_of_length_le this]
    · conv_rhs => rw [← List.take_append_drop m L]
      rw [joinN_append_of_ne_nil _ _ h1 h2]
      exact ⟨'\n' :: joinN (L.drop m), rfl⟩

theorem prefix_joinN_take_le (L : List (List Char)) (m n : Nat) (h : m ≤ n) :
    joinN (L.take m) <+: joinN (L.take n) := by
  have : L.take m = (L.take n).take m := by
    rw [List.take_take]
    congr 1
    omega
  rw [this]
  exact prefix_joinN_take (L.take n) m

theorem rstrip_prefix_self (X : List Char) : rstrip X <+: X := by
  refine ⟨(X.reverse.takeWhile pyWS).reverse, ?_⟩
  unfold rstrip
  rw [← List.reverse_append, List.takeWhile_append_dropWhile, List.reverse_reverse]

theorem rstrip_prefix_append (X R : List Char) : rstrip X <+: rstrip (X ++ R) := by
  unfold rstrip
  rw [List.reverse_append, List.dropWhile_append]
  by_cases h : (R.reverse.dropWhile pyWS).isEmpty
  · rw [if_pos h]
  · rw [if_neg h, List.reverse_append, List.reverse_reverse]
    exact (rstrip_prefix_self X).trans ⟨(R.reverse.dropWhile pyWS).reverse, rfl⟩

theorem pyStrip_prefix_mono (A B : List Char) (h : A <+: B) :
    pyStrip A <+: pyStrip B := by
  obtain ⟨R, rfl⟩ := h
  unfold pyStrip
  rw [List.dropWhile_append]
  by_cases hc : (A.dropWhile pyWS).isEmpty
  · rw [if_pos hc]
    rw [List.isEmpty_iff] at hc
    rw [hc]
    exact List.nil_prefix
  · rw [if_neg hc]
    exact rstrip_prefix_append _ R

theorem scanOccs_lineIdx_bounds :
    ∀ (lines : List (List Char)) (i : Nat) (o : Occ), o ∈ scanOccs i lines →
      i ≤ o.lineIdx ∧ o.lineIdx < i + lines.length
  | [], _, _, h => by simp [scanOccs] at h
  | line :: rest, i, o, h => by
    rw [scanOccs] at h
    cases hm : lineMarker line with
    | some p =>
      rw [hm] at h
      obtain ⟨k, t⟩ := p
      rcases List.mem_cons.mp h with rfl | h2
      · exact ⟨le_refl _, by simp only [List.length_cons]; omega⟩
      · have := scanOccs_lineIdx_bounds rest (i + 1) o h2
        constructor
        · omega
        · simp only [List.length_cons]
          omega
    | none =>
      rw [hm] at h
      have := scanOccs_lineIdx_bounds rest (i + 1) o h
      constructor
      · omega
      · simp only [List.length_cons]
        omega

theorem scanOccs_pairwise :
    ∀ (lines : List (List Char)) (i : Nat),
      List.Pairwise (fun a b => a.lineIdx < b.lineIdx) (scanOccs i lines)
  | [], _ => by simp [scanOccs]
  | line :: rest, i => by
    rw [scanOccs]
    cases hm : lineMarker line with
    | some p =>
      obtain ⟨k, t⟩ := p
      rw [List.pairwise_cons]
      refine ⟨?_, scanOccs_pairwise rest (i + 1)⟩
      intro o ho
      have := scanOccs_lineIdx_bounds rest (i + 1) o ho
      simp only []
      omega
    | none => exact scanOccs_pairwise rest (i + 1)

theorem le_fullEnd (r len m : Nat) :
    ∀ rest : List Occ, (∀ x ∈ rest, m ≤ x.lineIdx) → m ≤ len →
      m ≤ fullEnd r len rest
  | [], _, hlen => hlen
  | o :: rs, hmem, hlen => by
    rw [fullEnd]
    by_cases h : o.rank ≤ r
    · rw [if_pos h]
      exact hmem o (List.mem_cons_self _ _)
    · rw [if_neg h]
      exact le_fullEnd r len m rs (fun x hx => hmem x (List.mem_cons_of_mem _ hx)) hlen

theorem coEnd_le_fullEnd (r len : Nat) (rest : List Occ)
    (hb : ∀ x ∈ rest, x.lineIdx < len)
    (hp : List.Pairwise (fun a b => a.lineIdx < b.lineIdx) rest) :
    coEnd len rest ≤ fullEnd r len rest := by
  cases rest with
  | nil => exact le_refl _
  | cons o rs =>
    rw [coEnd, fullEnd]
    by_cases h : o.rank ≤ r
    · rw [if_pos h]
    · rw [if_neg h]
      have hPc := List.pairwise_cons.mp hp
      exact le_fullEnd r len o.lineIdx rs
        (fun x hx => le_of_lt (hPc.1 x hx))
        (le_of_lt (hb o (List.mem_cons_self _ _)))

theorem fullEntries_map_fst (lines : List (List Char)) :
    ∀ occs : List Occ, (fullEntries lines occs).map Prod.fst = occs.map Occ.title
  | [] => rfl
  | o :: rest => by
    simp [fullEntries, fullEntries_map_fst lines rest]

theorem coEntries_map_fst (lines : List (List Char)) :
    ∀ occs : List Occ, (coEntries lines occs).map Prod.fst = occs.map Occ.title
  | [] => rfl
  | o :: rest => by
    simp [coEntries, coEntries_map_fst lines rest]

/-- The content-only span of an occurrence is a prefix of its
full-hierarchy span (as extracted text). -/
theorem co_content_le_full (lines : List (List Char)) (o : Occ) (rest : List Occ)
    (hb : ∀ x ∈ rest, x.lineIdx < lines.length)
    (hp : List.Pairwise (fun a b => a.lineIdx < b.lineIdx) rest) :
    pyStrip (joinN (pySlice lines (o.lineIdx + 1) (coEnd lines.length rest))) <+:
      pyStrip (joinN (pySlice lines (o.lineIdx + 1)
        (fullEnd o.rank lines.length rest))) := by
  have hle := coEnd_le_fullEnd o.rank lines.length rest hb hp
  unfold pySlice
  exact pyStrip_prefix_mono _ _
    (prefix_joinN_take_le (lines.drop (o.lineIdx + 1)) _ _ (by omega))

theorem coFull_lookup (lines : List (List Char)) :
    ∀ (occs : List Occ),
      (∀ x ∈ occs, x.lineIdx < lines.length) →
      List.Pairwise (fun a b => a.lineIdx < b.lineIdx) occs →
      ∀ (T : List Char) (a : Node),
        lookupKey T (coEntries lines occs).reverse = some a →
        ∃ b, lookupKey T (fullEntries lines occs).reverse = some b ∧
          a.content <+: b.content
  | [], _, _, T, a => by
    intro h
    simp [coEntries, lookupKey] at h
  | o :: rest, hb, hp, T, a => by
    intro h
    have hPc := List.pairwise_cons.mp hp
    have hbrest : ∀ x ∈ rest, x.lineIdx < lines.length :=
      fun x hx => hb x (List.mem_cons_of_mem _ hx)
    rw [coEntries, List.reverse_cons, lookupKey_append] at h
    rw [fullEntries, List.reverse_cons, lookupKey_append]
    cases hr : lookupKey T (coEntries lines rest).reverse with
    | some v =>
      rw [hr] at h
      obtain ⟨b, hb1, hb2⟩ := coFull_lookup lines rest hbrest hPc.2 T v hr
      rw [hb1]
      exact ⟨b, rfl, by rwa [← Option.some_inj.mp h]⟩
    | none =>
      rw [hr] at h
      have hrf : lookupKey T (fullEntries lines rest).reverse = none := by
        rw [lookupKey_eq_none_iff] at hr ⊢
        rw [List.map_reverse, List.mem_reverse] at hr ⊢
        rw [fullEntries_map_fst]
        rwa [coEntries_map_fst] at hr
      rw [hrf]
      rw [lookupKey] at h ⊢
      by_cases ht : o.title = T
      · rw [if_pos ht] at h ⊢
        refine ⟨_, rfl, ?_⟩
        rw [← Option.some_inj.mp h]
        exact co_content_le_full lines o rest hbrest hPc.2
      · rw [if_neg ht] at h
        exact absurd h (Option.noConfusion)

/-- C7 (confirmed): whenever a title is present in the content-only
extraction, it is present in the full-hierarchy extraction, and the
content-only content is a substring (in fact a prefix, hence an infix)
of the full-hierarchy content. -/
theorem claim_C7 (text T : List Char) (node : Node)
    (h : lookupKey T (extract_sections_content_only text) = some node) :
    ∃ nodeF, lookupKey T (extract_sections text) = some nodeF ∧
      node.content <:+: nodeF.content := by
  unfold extract_sections_content_only at h
  unfold extract_sections
  rw [lookupKey_buildDict] at h
  rw [lookupKey_buildDict]
  have hocc : ∀ x ∈ scanOccs 0 (pySplit text), x.lineIdx < (pySplit text).length := by
    intro x hx
    have := scanOccs_lineIdx_bounds (pySplit text) 0 x hx
    omega
  obtain ⟨b, hb1, hb2⟩ := coFull_lookup (pySplit text) (scanOccs 0 (pySplit text))
    hocc (scanOccs_pairwise _ 0) T node h
  obtain ⟨t, ht⟩ := hb2
  exact ⟨b, hb1, [], t, by simpa using ht⟩

theorem claim_C7_witness :
    ∃ nodeF, lookupKey "A".data (extract_sections exEText) = some nodeF ∧
      ({ content := "text1".data, level := Kind.sect,
         line := ('\\' :: ("section".data ++ '{' :: ('A' :: ['}']))),
         rank := 1 } : Node).content <:+: nodeF.content :=
  claim_C7 exEText "A".data _ (by decide)

/-- C8 (confirmed): under duplicate (trimmed) titles the extraction
output of either policy holds exactly one entry for the title, and that
entry is the one contributed by the last per-occurrence pass (dict
assignment overwrites, so the later occurrence wins, silently). -/
theorem claim_C8 (text T : List Char)
    (hdup : 2 ≤ ((scanOccs 0 (pySplit text)).filter
      (fun o => decide (o.title = T))).length) :
    ((extract_sections text).countP (fun p => decide (p.1 = T)) = 1 ∧
      lookupKey T (extract_sections text) =
        ((fullEntries (pySplit text) (scanOccs 0 (pySplit text))).filter
          (fun p => decide (p.1 = T))).getLast?.map Prod.snd) ∧
    ((extract_sections_content_only text).countP (fun p => decide (p.1 = T)) = 1 ∧
      lookupKey T (extract_sections_content_only text) =
        ((coEntries (pySplit text) (scanOccs 0 (pySplit text))).filter
          (fun p => decide (p.1 = T))).getLast?.map Prod.snd) := by
  have hmem : T ∈ (scanOccs 0 (pySplit text)).map Occ.title := by
    have hpos : 0 < ((scanOccs 0 (pySplit text)).filter
        (fun o => decide (o.title = T))).length := by omega
    obtain ⟨x, hx⟩ := List.exists_mem_of_length_pos hpos
    have := List.mem_filter.mp hx
    rw [decide_eq_true_eq] at this
    exact this.2 ▸ List.mem_map_of_mem Occ.title this.1
  constructor
  · constructor
    · unfold extract_sections
      refine countKey_eq_one T _ (nodup_map_fst_buildDict _) ?_
      rw [mem_map_fst_buildDict, fullEntries_map_fst]
      exact hmem
    · unfold extract_sections
      rw [lookupKey_buildDict, lookupKey_reverse_eq_getLast]
  · constructor
    · unfold extract_sections_content_only
      refine countKey_eq_one T _ (nodup_map_fst_buildDict _) ?_
      rw [mem_map_fst_buildDict, coEntries_map_fst]
      exact hmem
    · unfold extract_sections_content_only
      rw [lookupKey_buildDict, lookupKey_reverse_eq_getLast]

theorem claim_C8_witness :
    ((extract_sections exC8Text).countP
        (fun p => decide (p.1 = "Dup".data)) = 1 ∧
      lookupKey "Dup".data (extract_sections exC8Text) =
        ((fullEntries (pySplit exC8Text) (scanOccs 0 (pySplit exC8Text))).filter
          (fun p => decide (p.1 = "Dup".data))).getLast?.map Prod.snd) ∧
    ((extract_sections_content_only exC8Text).countP
        (fun p => decide (p.1 = "Dup".data)) = 1 ∧
      lookupKey "Dup".data (extract_sections_content_only exC8Text) =
        ((coEntries (pySplit exC8Text) (scanOccs 0 (pySplit exC8Text))).filter
          (fun p => decide (p.1 = "Dup".data))).getLast?.map Prod.snd) :=
  claim_C8 exC8Text "Dup".data (by decide)

/-!
Regex-embedding reflection (claims C4, C5, C10)
-/

theorem takeWhile_self_append (p : Char → Bool) :
    ∀ l : List Char, l.takeWhile p ++ l.drop (l.takeWhile p).length = l
  | [] => rfl
  | c :: rest => by
    by_cases h : p c
    · simp only [List.takeWhile_cons, h, if_pos, List.length_cons,
        List.drop_succ_cons, List.cons_append]
      rw [takeWhile_self_append p rest]
    · simp [List.takeWhile_cons, h]

theorem takeWhile_all_append (p : Char → Bool) (x : Char) (hx : p x = false) :
    ∀ (t rest : List Char), (∀ c ∈ t, p c = true) →
      (t ++ x :: rest).takeWhile p = t
  | [], rest, _ => by simp [List.takeWhile_cons, hx]
  | c :: t2, rest, hall => by
    have hc := hall c (List.mem_cons_self _ _)
    simp only [List.cons_append, List.takeWhile_cons, hc, if_pos]
    rw [takeWhile_all_append p x hx t2 rest
      (fun d hd => hall d (List.mem_cons_of_mem _ hd))]

theorem pySplit_ne_nil : ∀ l : List Char, pySplit l ≠ []
  | [] => by simp [pySplit]
  | c :: rest => by
    rw [pySplit]
    by_cases h : c = '\n'
    · simp [h]
    · rw [if_neg h]
      cases hp : pySplit rest with
      | nil => simp
      | cons a b => simp

theorem joinN_pySplit : ∀ l : List Char, joinN (pySplit l) = l
  | [] => rfl
  | c :: rest => by
    rw [pySplit]
    by_cases h : c = '\n'
    · rw [if_pos h]
      cases hp : pySplit rest with
      | nil => exact absurd hp (pySplit_ne_nil rest)
      | cons a b =>
        have ih : joinN (a :: b) = rest := by
          rw [← hp, joinN_pySplit rest]
        rw [joinN, ih, h]
        cases b <;> rfl
    · rw [if_neg h]
      cases hp : pySplit rest with
      | nil => exact absurd hp (pySplit_ne_nil rest)
      | cons a b =>
        have ih : joinN (a :: b) = rest := by
          rw [← hp, joinN_pySplit rest]
        cases b with
        | nil =>
          simp only [joinN] at ih ⊢
          rw [ih]
        | cons b0 bt =>
          simp only [joinN, List.cons_append] at ih ⊢
          rw [← ih]
  termination_by l => l.length
  decreasing_by all_goals (simp only [List.length_cons]; omega)

theorem head_prefix_joinN (l0 : List Char) (L : List (List Char)) :
    l0 <+: joinN (l0 :: L) := by
  cases L with
  | nil => exact ⟨[], by simp [joinN]⟩
  | cons a b => exact ⟨'\n' :: joinN (a :: b), rfl⟩

theorem containsSub_iff (pat text : List Char) :
    containsSub pat text = true ↔ pat <:+: text := by
  unfold containsSub
  rw [List.any_eq_true]
  constructor
  · rintro ⟨i, _, hp⟩
    rw [List.isPrefixOf_iff_prefix] at hp
    obtain ⟨t, ht⟩ := hp
    refine ⟨text.take i, t, ?_⟩
    rw [List.append_assoc, ht, List.take_append_drop]
  · rintro ⟨u, t, hut⟩
    refine ⟨u.length, ?_, ?_⟩
    · rw [List.mem_range]
      have : u.length ≤ text.length := by
        rw [← hut]
        simp only [List.length_append]
        omega
      omega
    · rw [List.isPrefixOf_iff_prefix, ← hut, List.append_assoc, List.drop_left]
      exact ⟨t, rfl⟩

theorem drop_marker_head (k : Kind) (s1 : List Char) :
    (('\\' :: kindName k) ++ s1).drop (1 + (kindName k).length) = s1 := by
  rw [List.cons_append, Nat.add_comm, List.drop_succ_cons, List.drop_left]

/-- The scanner pattern matches at the head of `s` with group `t` exactly
when `s` decomposes as backslash, command name, optional star, and a
braced nonempty brace-free group `t`. -/
theorem genHere_some_iff (k : Kind) (s t : List Char) :
    genHere k s = some t ↔
      ∃ star rest, (star = [] ∨ star = ['*']) ∧ t ≠ [] ∧ '}' ∉ t ∧
        s = '\\' :: (kindName k ++ (star ++ '{' :: (t ++ '}' :: rest))) := by
  constructor
  · intro h
    by_cases hpre : ('\\' :: kindName k).isPrefixOf s = true
    case neg =>
      rw [genHere, if_neg hpre] at h
      exact absurd h (by simp)
    case pos =>
      obtain ⟨s1, rfl⟩ := List.isPrefixOf_iff_prefix.mp hpre
      simp only [genHere, if_pos hpre, drop_marker_head] at h
      split at h
      next r3 heq1 =>
        split at h
        next ht0 => exact absurd h (by simp)
        next ht0 =>
          split at h
          next v heq2 =>
            rw [Option.some_inj] at h
            subst h
            have hmemt : '}' ∉ r3.takeWhile (fun c => c ≠ '}') := by
              intro hmem
              have := List.mem_takeWhile_imp hmem
              simp at this
            have hr3 := takeWhile_self_append (fun c => decide (c ≠ '}')) r3
            rw [heq2] at hr3
            by_cases hstar : s1.head? = some '*'
            · rw [if_pos hstar] at heq1
              cases s1 with
              | nil => simp at hstar
              | cons a s2 =>
                have ha : a = '*' := by simpa using hstar
                subst ha
                simp only [List.tail_cons] at heq1
                subst heq1
                refine ⟨['*'], v, Or.inr rfl, ht0, hmemt, ?_⟩
                conv_lhs => rw [← hr3]
                simp
            · rw [if_neg hstar] at heq1
              subst heq1
              refine ⟨[], v, Or.inl rfl, ht0, hmemt, ?_⟩
              conv_lhs => rw [← hr3]
              simp
          next hne => exact absurd h (by simp)
      next hne => exact absurd h (by simp)
  · rintro ⟨star, v, hstar, htne, htmem, rfl⟩
    have htw : (t ++ '}' :: v).takeWhile (fun c => c ≠ '}') = t :=
      takeWhile_all_append _ '}' (by simp) t v
        (fun c hc => by
          simp only [decide_eq_true_eq]
          intro hcc
          exact htmem (hcc ▸ hc))
    rcases hstar with rfl | rfl
    · show genHere k (('\\' :: kindName k) ++ ('{' :: (t ++ '}' :: v))) = some t
      have hpre : ('\\' :: kindName k).isPrefixOf
          (('\\' :: kindName k) ++ ('{' :: (t ++ '}' :: v))) = true := by
        rw [List.isPrefixOf_iff_prefix]
        exact ⟨_, rfl⟩
      simp only [genHere, if_pos hpre, drop_marker_head]
      rw [if_neg (by simp : ¬ ('{' :: (t ++ '}' :: v)).head? = some '*')]
      show (if (t ++ '}' :: v).takeWhile (fun c => c ≠ '}') = [] then none
        else
          match (t ++ '}' :: v).drop
              ((t ++ '}' :: v).takeWhile (fun c => c ≠ '}')).length with
          | '}' :: _ => some ((t ++ '}' :: v).takeWhile (fun c => c ≠ '}'))
          | _ => none) = some t
      rw [htw, if_neg htne, List.drop_left]
      rfl
    · show genHere k (('\\' :: kindName k) ++ ('*' :: '{' :: (t ++ '}' :: v))) = some t
      have hpre : ('\\' :: kindName k).isPrefixOf
          (('\\' :: kindName k) ++ ('*' :: '{' :: (t ++ '}' :: v))) = true := by
        rw [List.isPrefixOf_iff_prefix]
        exact ⟨_, rfl⟩
      simp only [genHere, if_pos hpre, drop_marker_head]
      rw [if_pos (by simp : ('*' :: '{' :: (t ++ '}' :: v)).head? = some '*')]
      simp only [List.tail_cons]
      show (if (t ++ '}' :: v).takeWhile (fun c => c ≠ '}') = [] then none
        else
          match (t ++ '}' :: v).drop
              ((t ++ '}' :: v).takeWhile (fun c => c ≠ '}')).length with
          | '}' :: _ => some ((t ++ '}' :: v).takeWhile (fun c => c ≠ '}'))
          | _ => none) = some t
      rw [htw, if_neg htne, List.drop_left]
      rfl

theorem genHere_nil (k : Kind) : genHere k [] = none := rfl

theorem genSearch_eq_none (k : Kind) :
    ∀ (line : List Char), genSearch k line = none →
      ∀ d, genHere k (line.drop d) = none
  | [], _, d => by
    rw [List.drop_nil]
    exact genHere_nil k
  | c :: rest, h, d => by
    simp only [genSearch] at h
    cases hg : genHere k (c :: rest) with
    | some t =>
      rw [hg] at h
      exact absurd h (by simp)
    | none =>
      rw [hg] at h
      cases d with
      | zero => exact hg
      | succ d2 =>
        rw [List.drop_succ_cons]
        exact genSearch_eq_none k rest h d2

theorem genSearch_eq_some (k : Kind) :
    ∀ (line t : List Char), genSearch k line = some t →
      ∃ d, genHere k (line.drop d) = some t
  | [], t, h => by simp [genSearch] at h
  | c :: rest, t, h => by
    simp only [genSearch] at h
    cases hg : genHere k (c :: rest) with
    | some t2 =>
      rw [hg] at h
      exact ⟨0, by rw [List.drop_zero]; exact hg.trans h⟩
    | none =>
      rw [hg] at h
      obtain ⟨d, hd⟩ := genSearch_eq_some k rest t h
      exact ⟨d + 1, by rw [List.drop_succ_cons]; exact hd⟩

/-- `pattern.search(line)` finds a match exactly when the scanner pattern
occurs somewhere in the line. -/
theorem genSearch_isSome_iff (k : Kind) (line : List Char) :
    (genSearch k line).isSome = true ↔ MarkerOn k line := by
  constructor
  · intro h
    rw [Option.isSome_iff_exists] at h
    obtain ⟨t, ht⟩ := h
    obtain ⟨d, hd⟩ := genSearch_eq_some k line t ht
    rw [genHere_some_iff] at hd
    obtain ⟨star, rest, hstar, htne, htmem, heq⟩ := hd
    refine ⟨line.take d, star, t, rest, hstar, htne, htmem, ?_⟩
    conv_lhs => rw [← List.take_append_drop d line]
    rw [heq]
  · rintro ⟨pre, star, t, rest, hstar, htne, htmem, rfl⟩
    cases hg : genSearch k
        (pre ++ '\\' :: (kindName k ++ (star ++ '{' :: (t ++ '}' :: rest)))) with
    | some t2 => rfl
    | none =>
      exfalso
      have hnone := genSearch_eq_none k _ hg pre.length
      rw [List.drop_left] at hnone
      have hsome : genHere k
          ('\\' :: (kindName k ++ (star ++ '{' :: (t ++ '}' :: rest)))) = some t :=
        (genHere_some_iff k _ t).mpr ⟨star, rest, hstar, htne, htmem, rfl⟩
      rw [hnone] at hsome
      exact absurd hsome (by simp)

/-- The Bool-level per-line stop test of the end-of-span scan agrees with
its Prop-level characterization. -/
theorem stopLineB_iff (incl : Bool) (r : Nat) (line : List Char) :
    stopLineB incl r line = true ↔ StopLineP incl r line := by
  unfold stopLineB StopLineP
  rw [Bool.or_eq_true, containsSub_iff, List.any_eq_true]
  refine or_congr (Iff.refl _) ?_
  constructor
  · rintro ⟨ck, hck, hb⟩
    rw [Bool.and_eq_true] at hb
    refine ⟨ck, hck, (genSearch_isSome_iff ck line).mp hb.1, ?_⟩
    intro hincl
    have hb2 := hb.2
    rw [hincl] at hb2
    simpa using hb2
  · rintro ⟨ck, hck, hmk, hr⟩
    refine ⟨ck, hck, ?_⟩
    rw [Bool.and_eq_true]
    refine ⟨(genSearch_isSome_iff ck line).mpr hmk, ?_⟩
    cases incl with
    | false => rfl
    | true => simpa using hr rfl

theorem scanStop_eq_none_iff (incl : Bool) (r : Nat) :
    ∀ lines : List (List Char),
      scanStop incl r lines = none ↔ ∀ l ∈ lines, stopLineB incl r l = false
  | [] => by simp [scanStop]
  | line :: rest => by
    rw [scanStop]
    by_cases h : stopLineB incl r line = true
    · simp [h]
    · rw [Bool.not_eq_true] at h
      simp [h, scanStop_eq_none_iff incl r rest]

theorem scanStop_some_spec (incl : Bool) (r : Nat) :
    ∀ (lines : List (List Char)) (j : Nat), scanStop incl r lines = some j →
      j < lines.length ∧ stopLineB incl r (lines.getD j []) = true ∧
        ∀ j2 < j, stopLineB incl r (lines.getD j2 []) = false
  | [], j, h => by simp [scanStop] at h
  | line :: rest, j, h => by
    rw [scanStop] at h
    by_cases hb : stopLineB incl r line = true
    · rw [if_pos hb, Option.some_inj] at h
      subst h
      exact ⟨by simp, by simpa using hb,
        fun j2 hj2 => absurd hj2 (by omega)⟩
    · rw [if_neg hb] at h
      cases hs : scanStop incl r rest with
      | none =>
        rw [hs] at h
        exact absurd h (by simp)
      | some j2 =>
        rw [hs] at h
        simp only [Option.map_some'] at h
        rw [Option.some_inj] at h
        subst h
        obtain ⟨h1, h2, h3⟩ := scanStop_some_spec incl r rest j2 hs
        refine ⟨by simp only [List.length_cons]; omega, by simpa using h2, ?_⟩
        intro j3 hj3
        cases j3 with
        | zero =>
          rw [Bool.not_eq_true] at hb
          simpa using hb
        | succ j4 =>
          rw [List.getD_cons_succ]
          exact h3 j4 (by omega)

theorem scanStop_eq_some_of (incl : Bool) (r : Nat) :
    ∀ (lines : List (List Char)) (j : Nat), j < lines.length →
      stopLineB incl r (lines.getD j []) = true →
      (∀ j2 < j, stopLineB incl r (lines.getD j2 []) = false) →
      scanStop incl r lines = some j
  | [], j, hj, _, _ => by simp at hj
  | line :: rest, 0, _, hstop, _ => by
    rw [scanStop, if_pos (by simpa using hstop)]
  | line :: rest, j + 1, hj, hstop, hmin => by
    have hline : stopLineB incl r line = false := by simpa using hmin 0 (by omega)
    rw [scanStop, if_neg (by simp [hline]),
      scanStop_eq_some_of incl r rest j (by simpa using hj) (by simpa using hstop)
        (fun j2 hj2 => by simpa using hmin (j2 + 1) (by omega))]
    rfl

/-- The locator pattern `\\KIND\*?\{TITLE\}` matches at the head of `s`
exactly when `s` decomposes accordingly; the matched length covers the
backslash, the name, the optional star, both braces and the title. -/
theorem litHere_some_iff (k : Kind) (title s : List Char) (L : Nat) :
    litHere k title s = some L ↔
      ∃ star rest, (star = [] ∨ star = ['*']) ∧
        s = '\\' :: (kindName k ++ (star ++ '{' :: (title ++ '}' :: rest))) ∧
        L = 3 + (kindName k).length + star.length + title.length := by
  unfold litHere
  constructor
  · intro h
    by_cases h1 : ('\\' :: (kindName k ++ '*' :: '{' :: (title ++ ['}']))).isPrefixOf s
      = true
    · rw [if_pos h1, Option.some_inj] at h
      obtain ⟨u, hu⟩ := List.isPrefixOf_iff_prefix.mp h1
      refine ⟨['*'], u, Or.inr rfl, ?_, ?_⟩
      · rw [← hu]
        simp
      · simp only [List.length_singleton]
        omega
    · rw [if_neg h1] at h
      by_cases h2 : ('\\' :: (kindName k ++ '{' :: (title ++ ['}']))).isPrefixOf s
        = true
      · rw [if_pos h2, Option.some_inj] at h
        obtain ⟨u, hu⟩ := List.isPrefixOf_iff_prefix.mp h2
        refine ⟨[], u, Or.inl rfl, ?_, ?_⟩
        · rw [← hu]
          simp
        · simp only [List.length_nil]
          omega
      · rw [if_neg h2] at h
        exact absurd h (by simp)
  · rintro ⟨star, rest, hstar, rfl, hL⟩
    rcases hstar with rfl | rfl
    · have h1 : ¬ ('\\' :: (kindName k ++ '*' :: '{' :: (title ++ ['}']))).isPrefixOf
          ('\\' :: (kindName k ++ ([] ++ '{' :: (title ++ '}' :: rest)))) = true := by
        intro hc
        obtain ⟨u, hu⟩ := List.isPrefixOf_iff_prefix.mp hc
        simp at hu
      rw [if_neg h1]
      have h2 : ('\\' :: (kindName k ++ '{' :: (title ++ ['}']))).isPrefixOf
          ('\\' :: (kindName k ++ ([] ++ '{' :: (title ++ '}' :: rest)))) = true := by
        rw [List.isPrefixOf_iff_prefix]
        refine ⟨rest, ?_⟩
        simp
      rw [if_pos h2, Option.some_inj]
      simp only [List.length_nil] at hL
      omega
    · have h1 : ('\\' :: (kindName k ++ '*' :: '{' :: (title ++ ['}']))).isPrefixOf
          ('\\' :: (kindName k ++ (['*'] ++ '{' :: (title ++ '}' :: rest)))) = true := by
        rw [List.isPrefixOf_iff_prefix]
        refine ⟨rest, ?_⟩
        simp
      rw [if_pos h1, Option.some_inj]
      simp only [List.length_singleton] at hL
      omega

theorem searchLitAux_none (k : Kind) (title : List Char) :
    ∀ (s : List Char) (i : Nat), searchLitAux k title s i = none →
      ∀ d, litHere k title (s.drop d) = none
  | [], i, h, d => by
    rw [List.drop_nil]
    cases hl : litHere k title [] with
    | none => rfl
    | some L =>
      exfalso
      simp only [searchLitAux, hl] at h
      exact absurd h (by simp)
  | c :: rest, i, h, d => by
    simp only [searchLitAux] at h
    cases hl : litHere k title (c :: rest) with
    | some L =>
      rw [hl] at h
      exact absurd h (by simp)
    | none =>
      rw [hl] at h
      cases d with
      | zero => exact hl
      | succ d2 =>
        rw [List.drop_succ_cons]
        exact searchLitAux_none k title rest (i + 1) h d2

theorem searchLitAux_some (k : Kind) (title : List Char) :
    ∀ (s : List Char) (i p q : Nat), searchLitAux k title s i = some (p, q) →
      ∃ d, p = i + d ∧ p ≤ q ∧ litHere k title (s.drop d) = some (q - p) ∧
        ∀ d2 < d, litHere k title (s.drop d2) = none
  | [], i, p, q, h => by
    simp only [searchLitAux] at h
    cases hl : litHere k title [] with
    | none =>
      rw [hl] at h
      exact absurd h (by simp)
    | some L =>
      rw [hl, Option.some_inj, Prod.mk.injEq] at h
      obtain ⟨rfl, rfl⟩ := h
      refine ⟨0, by omega, by omega, ?_, fun d2 hd2 => absurd hd2 (by omega)⟩
      rw [List.drop_nil, show i + L - i = L from by omega]
      exact hl
  | c :: rest, i, p, q, h => by
    simp only [searchLitAux] at h
    cases hl : litHere k title (c :: rest) with
    | some L =>
      rw [hl, Option.some_inj, Prod.mk.injEq] at h
      obtain ⟨rfl, rfl⟩ := h
      refine ⟨0, by omega, by omega, ?_, fun d2 hd2 => absurd hd2 (by omega)⟩
      rw [List.drop_zero, show i + L - i = L from by omega]
      exact hl
    | none =>
      rw [hl] at h
      obtain ⟨d, hp, hpq, hlit, hmin⟩ := searchLitAux_some k title rest (i + 1) p q h
      refine ⟨d + 1, by omega, hpq, by rw [List.drop_succ_cons]; exact hlit, ?_⟩
      intro d2 hd2
      cases d2 with
      | zero =>
        rw [List.drop_zero]
        exact hl
      | succ d3 =>
        rw [List.drop_succ_cons]
        exact hmin d3 (by omega)

/-- What a successful return of `find_section_in_template`'s kind loop
means: all earlier kinds in the pattern list match nowhere, the returned
kind's pattern has a leftmost match ending at `start_pos`, and the end
position is the end-of-span scan's result. -/
theorem fsLoop_some_spec (text title : List Char) (incl : Bool) :
    ∀ (ks : List Kind) (s e : Nat) (k : Kind),
      fsLoop text title incl ks = some (s, e, k) →
      ∃ pre post p, ks = pre ++ k :: post ∧
        (∀ k2 ∈ pre, searchLit k2 title text = none) ∧
        searchLit k title text = some (p, s) ∧
        e = computeEnd text s (rankOf k) incl
  | [], s, e, k, h => by simp [fsLoop] at h
  | k0 :: ks2, s, e, k, h => by
    simp only [fsLoop] at h
    cases hs : searchLit k0 title text with
    | some pq =>
      obtain ⟨p0, e0⟩ := pq
      rw [hs] at h
      simp only [Option.some_inj, Prod.mk.injEq] at h
      obtain ⟨h1, h2, h3⟩ := h
      subst h1
      subst h3
      subst h2
      exact ⟨[], ks2, p0, rfl, by simp, hs, rfl⟩
    | none =>
      rw [hs] at h
      obtain ⟨pre, post, p, hks, hpre, hsl, he⟩ :=
        fsLoop_some_spec text title incl ks2 s e k h
      refine ⟨k0 :: pre, post, p, by rw [hks]; rfl, ?_, hsl, he⟩
      intro k2 hk2
      rcases List.mem_cons.mp hk2 with rfl | hk2
      · exact hs
      · exact hpre k2 hk2

theorem takeWhile_ne_append (k : Kind) :
    ∀ (pre post : List Kind), k ∉ pre →
      (pre ++ k :: post).takeWhile (fun k2 => k2 ≠ k) = pre
  | [], post, _ => by simp [List.takeWhile_cons]
  | a :: pre2, post, hmem => by
    have ha : a ≠ k := fun hh => hmem (hh ▸ List.mem_cons_self a pre2)
    simp only [List.cons_append, List.takeWhile_cons]
    rw [if_pos (by simpa using ha),
      takeWhile_ne_append k pre2 post (fun hm => hmem (List.mem_cons_of_mem _ hm))]

theorem kindsBefore_of_decomp (pre post : List Kind) (k : Kind)
    (h : kindsOrder = pre ++ k :: post) : kindsBefore k = pre := by
  have hnd : (pre ++ k :: post).Nodup := h ▸ (by decide : kindsOrder.Nodup)
  have hdisj := (List.nodup_append.mp hnd).2.2
  have hkpre : k ∉ pre := fun hk => hdisj hk (List.mem_cons_self _ _)
  unfold kindsBefore
  rw [h]
  exact takeWhile_ne_append k pre post hkpre

/-- C4 (corrected): the locator returns the first *kind*, in the fixed
order chapter → section → subsection → subsubsection → paragraph, whose
literal pattern matches anywhere — for the kinds tried before it there is
no match at any offset — and within that kind it takes the earliest
occurrence, placing the span start right after the title's closing brace. -/
theorem claim_C4 (text title : List Char) (incl : Bool) (s e : Nat) (k : Kind)
    (h : find_section_in_template text title incl = some (s, e, k)) :
    (∀ k2 ∈ kindsBefore k, ∀ q, ¬ LitAt k2 title text q) ∧
    (∃ p star rest, (star = [] ∨ star = ['*']) ∧
      text.drop p = '\\' :: (kindName k ++ (star ++ '{' :: (title ++ '}' :: rest))) ∧
      (∀ j < p, ¬ LitAt k title text j) ∧
      s = p + (3 + (kindName k).length + star.length + title.length)) := by
  obtain ⟨pre, post, p, hks, hpre, hsl, he⟩ :=
    fsLoop_some_spec text title incl kindsOrder s e k h
  constructor
  · rw [kindsBefore_of_decomp pre post k hks]
    intro k2 hk2 q hq
    obtain ⟨star, rest, hstar, hdec⟩ := hq
    have hnone := searchLitAux_none k2 title text 0 (hpre k2 hk2) q
    have hsome : litHere k2 title (text.drop q) =
        some (3 + (kindName k2).length + star.length + title.length) :=
      (litHere_some_iff k2 title _ _).mpr ⟨star, rest, hstar, hdec, rfl⟩
    rw [hnone] at hsome
    exact absurd hsome (by simp)
  · obtain ⟨d, hp, hpq, hlit, hmin⟩ := searchLitAux_some k title text 0 p s hsl
    rw [litHere_some_iff] at hlit
    obtain ⟨star, rest, hstar, hdec, hL⟩ := hlit
    refine ⟨d, star, rest, hstar, hdec, ?_, by omega⟩
    intro j hj hLit
    obtain ⟨star2, rest2, hstar2, hdec2⟩ := hLit
    have h0 := hmin j (by omega)
    have hsome : litHere k title (text.drop j) =
        some (3 + (kindName k).length + star2.length + title.length) :=
      (litHere_some_iff k title _ _).mpr ⟨star2, rest2, hstar2, hdec2, rfl⟩
    rw [h0] at hsome
    exact absurd hsome (by simp)

theorem claim_C4_witness :
    (∀ k2 ∈ kindsBefore Kind.chapter, ∀ q, ¬ LitAt k2 "T".data exC4Text q) ∧
    (∃ p star rest, (star = [] ∨ star = ['*']) ∧
      exC4Text.drop p =
        '\\' :: (kindName Kind.chapter ++ (star ++ '{' :: ("T".data ++ '}' :: rest))) ∧
      (∀ j < p, ¬ LitAt Kind.chapter "T".data exC4Text j) ∧
      25 = p + (3 + (kindName Kind.chapter).length + star.length + "T".data.length)) :=
  claim_C4 exC4Text "T".data true 25 27 Kind.chapter (by decide)

/-- C4 as stated is false: in `exC4Text` the title `T` occurs earliest
(at offset 0) as a `\section`, later (at offset 14) as a `\chapter`, yet
the locator returns the chapter occurrence because the chapter pattern is
tried first. -/
theorem claim_C4_counterexample :
    find_section_in_template exC4Text "T".data true = some (25, 27, Kind.chapter) ∧
    litHere Kind.sect "T".data exC4Text = some 11 ∧
    searchLit Kind.chapter "T".data exC4Text = some (14, 25) ∧
    Kind.chapter ≠ Kind.sect := by
  refine ⟨by decide, by decide, by decide, by decide⟩

/-- C5 (confirmed): the end of a located span is determined by the first
line, scanning from just after the match, that carries the terminator
sentinel or a policy boundary (any-rank marker when children are
excluded, rank ≤ target when included); the span then ends before that
line, a terminator line stopping the scan regardless of marker ranks;
with no such line the span runs to the end of the document. -/
theorem claim_C5 (text title : List Char) (incl : Bool) (s e : Nat) (k : Kind)
    (h : find_section_in_template text title incl = some (s, e, k)) :
    ((∀ line ∈ pySplit (text.drop s), ¬ StopLineP incl (rankOf k) line) →
        e = text.length) ∧
    (∀ j, j < (pySplit (text.drop s)).length →
      StopLineP incl (rankOf k) ((pySplit (text.drop s)).getD j []) →
      (∀ j2 < j, ¬ StopLineP incl (rankOf k) ((pySplit (text.drop s)).getD j2 [])) →
      e = s + (joinN ((pySplit (text.drop s)).take j)).length) := by
  obtain ⟨pre, post, p, hks, hpre, hsl, he⟩ :=
    fsLoop_some_spec text title incl kindsOrder s e k h
  subst he
  constructor
  · intro hno
    simp only [computeEnd]
    rw [(scanStop_eq_none_iff incl (rankOf k) _).mpr ?_]
    intro l hl
    by_cases hb : stopLineB incl (rankOf k) l = true
    · exact absurd ((stopLineB_iff _ _ _).mp hb) (hno l hl)
    · rwa [Bool.not_eq_true] at hb
  · intro j hj hstop hmin
    simp only [computeEnd]
    rw [scanStop_eq_some_of incl (rankOf k) _ j hj
      ((stopLineB_iff _ _ _).mpr hstop) ?_]
    intro j2 hj2
    by_cases hb : stopLineB incl (rankOf k) ((pySplit (text.drop s)).getD j2 []) = true
    · exact absurd ((stopLineB_iff _ _ _).mp hb) (hmin j2 hj2)
    · rwa [Bool.not_eq_true] at hb

theorem claim_C5_witness :
    (27 : Nat) = 25 + (joinN ((pySplit (exC4Text.drop 25)).take 2)).length := by
  refine (claim_C5 exC4Text "T".data true 25 27 Kind.chapter (by decide)).2 2
    (by decide) (Or.inl ⟨[], [], by decide⟩) ?_
  intro j2 hj2
  interval_cases j2 <;>
    exact fun hs => absurd ((stopLineB_iff _ _ _).mpr hs) (by decide)

/-- C10 (corrected): the span does start at the character right after the
title's closing brace (first conjunct), but the same-line trailing text
lies inside the span only when that remainder does not itself stop the
scan; if it carries a terminator or a boundary marker the span is closed
on the marker's own line (at or before the remainder), so the trailing
text survives splicing. -/
theorem claim_C10 (text title : List Char) (incl : Bool) (s e : Nat) (k : Kind)
    (h : find_section_in_template text title incl = some (s, e, k)) :
    (∃ p star rest, (star = [] ∨ star = ['*']) ∧
        text.drop p = '\\' :: (kindName k ++ (star ++ '{' :: (title ++ '}' :: rest))) ∧
        s = p + (3 + (kindName k).length + star.length + title.length)) ∧
    (¬ StopLineP incl (rankOf k) ((pySplit (text.drop s)).headD []) →
      s + ((pySplit (text.drop s)).headD []).length ≤ e) := by
  obtain ⟨pre, post, p, hks, hpre, hsl, he⟩ :=
    fsLoop_some_spec text title incl kindsOrder s e k h
  obtain ⟨d, hp, hpq, hlit, hmin⟩ := searchLitAux_some k title text 0 p s hsl
  rw [litHere_some_iff] at hlit
  obtain ⟨star, rest, hstar, hdec, hL⟩ := hlit
  have hdp : d = p := by omega
  subst hdp
  have hsle : s ≤ text.length := by
    have hlen := congrArg List.length hdec
    rw [List.length_drop] at hlen
    simp only [List.length_cons, List.length_append] at hlen
    omega
  constructor
  · exact ⟨d, star, rest, hstar, hdec, by omega⟩
  · intro hns
    subst he
    cases hps : pySplit (text.drop s) with
    | nil => exact absurd hps (pySplit_ne_nil _)
    | cons l0 L =>
      simp only [computeEnd]
      rw [hps] at hns ⊢
      simp only [List.headD_cons] at hns ⊢
      cases hscan : scanStop incl (rankOf k) (l0 :: L) with
      | none =>
        show s + l0.length ≤ text.length
        have hj : joinN (pySplit (text.drop s)) = text.drop s := joinN_pySplit _
        rw [hps] at hj
        have hpref : l0 <+: text.drop s := by
          rw [← hj]
          exact head_prefix_joinN l0 L
        have hlp := hpref.length_le
        rw [List.length_drop] at hlp
        omega
      | some j =>
        obtain ⟨hjl, hstop, hmin2⟩ := scanStop_some_spec incl (rankOf k) _ j hscan
        cases j with
        | zero =>
          simp only [List.getD_cons_zero] at hstop
          exact absurd ((stopLineB_iff _ _ _).mp hstop) hns
        | succ j2 =>
          show s + l0.length ≤ s + (joinN ((l0 :: L).take (j2 + 1))).length
          rw [List.take_succ_cons]
          have hple := (head_prefix_joinN l0 (L.take j2)).length_le
          omega

theorem claim_C10_witness :
    (∃ p star rest, (star = [] ∨ star = ['*']) ∧
        exC4Text.drop p =
          '\\' :: (kindName Kind.chapter ++
            (star ++ '{' :: ("T".data ++ '}' :: rest))) ∧
        25 = p + (3 + (kindName Kind.chapter).length + star.length +
          "T".data.length)) ∧
    (¬ StopLineP true (rankOf Kind.chapter) ((pySplit (exC4Text.drop 25)).headD []) →
      25 + ((pySplit (exC4Text.drop 25)).headD []).length ≤ 27) :=
  claim_C10 exC4Text "T".data true 25 27 Kind.chapter (by decide)

/-- C10 as stated is false in its containment half: here the remainder of
the marker's own line holds the terminator sentinel, so the located span
is empty (`[11, 11)`) while 17 characters follow the closing brace on
that same line; replacing the span leaves them in the document instead of
discarding them. -/
theorem claim_C10_counterexample :
    find_section_in_template exC10Text "T".data true = some (11, 11, Kind.sect) ∧
    ((pySplit (exC10Text.drop 11)).headD []).length = 17 ∧
    containsSub " x ".data
      (applyOne exC10Text
        { start := 11, stop := 11, content := "NEW".data, oldSection := "o".data,
          newSection := "T".data, isMapped := true }) = true := by
  refine ⟨by decide, by decide, by decide⟩

theorem claim_C9_witness :
    migrateContent [("Ghost".data, "Introduction".data)] [] false exOldA exNewA =
      migrateContent [] [] false exOldA exNewA := by
  have h := claim_C9 [] [] [] "Ghost".data "Introduction".data false exOldA exNewA
    (by decide)
  simpa using h.2

end LatexMig
